import Mathlib

/-!
Verification of the thread-safe LRU cache in `src/lru_cache.py`.

The Python code builds a doubly linked list of `_Node` objects (with two
sentinel nodes `head` and `tail`) plus a dict `cache : key -> _Node`.
Mutable aliased nodes are embedded as an arena: nodes live in an `Array Node`
and `prev`/`next` are integer handles (`Option Nat`, `none` modelling Python's
`None`).  Every pointer dereference that Python performs with attribute access
(which raises on `None` or a dangling handle) is a fallible read, so each
mutating operation returns `Option` — `none` models a raised exception.
The dict is an association list with the usual unique-key discipline.
-/

set_option maxHeartbeats 1000000

/-- Mirrors `_Node` in `src/lru_cache.py`: a key/value record with `prev`/`next`
handles into the arena (`none` = Python `None`). -/
structure Node where
  key : Int
  value : Int
  prev : Option Nat
  next : Option Nat
deriving DecidableEq

/-- Mirrors the state of a `LRUCache` object: `capacity`, the dict `cache`
(key -> node handle), the arena of nodes, and the handles of the two
sentinels created in `__init__`. -/
structure LRUCache where
  capacity : Int
  cache : List (Int × Nat)
  nodes : Array Node
  head : Nat
  tail : Nat
deriving DecidableEq

/-- Python `dict.get`: first (unique) binding of a key, `none` when absent. -/
def alookup {β : Type} : List (Int × β) → Int → Option β
  | [], _ => none
  | e :: es, k => if e.1 = k then some e.2 else alookup es k

/-- Python `del d[k]`: drop the (unique) binding of `k`. -/
def eraseKey {β : Type} : List (Int × β) → Int → List (Int × β)
  | [], _ => []
  | e :: es, k => if e.1 = k then es else e :: eraseKey es k

/-- Python `d[k] = v`: overwrite the binding if present, else append. -/
def dictSet {β : Type} (d : List (Int × β)) (k : Int) (v : β) : List (Int × β) :=
  match alookup d k with
  | some _ => d.map (fun e => if e.1 = k then (k, v) else e)
  | none => d ++ [(k, v)]

/-- Read a node record out of the arena (total, with a junk default; all
reads performed by the operations themselves go through `Array.getElem?`). -/
def nd (c : LRUCache) (i : Nat) : Node := c.nodes.getD i ⟨0, 0, none, none⟩

/-- Overwrite one arena slot (Python: field assignment on an aliased node). -/
def setNode (c : LRUCache) (i : Nat) (x : Node) : LRUCache :=
  { c with nodes := c.nodes.setD i x }

/-- `LRUCache.__init__`: validate the capacity, then build the empty dict and
the two sentinels with `head.next = tail`, `tail.prev = head`. -/
def LRUCache.construct (capacity : Int) : Except String LRUCache :=
  if capacity ≤ 0 then .error "Capacity must be positive"
  else .ok { capacity := capacity, cache := [],
             nodes := #[⟨0, 0, none, some 1⟩, ⟨0, 0, some 0, none⟩],
             head := 0, tail := 1 }

/-- `LRUCache._add_node`: link node `n` right after the head sentinel,
performing the four field assignments of the source in order, re-reading
`self.head.next` exactly where the source does. -/
def LRUCache._add_node (c : LRUCache) (n : Nat) : Option LRUCache :=
  match c.nodes[n]? with
  | none => none
  | some node =>
    -- node.prev = self.head
    let c1 := setNode c n { node with prev := some c.head }
    match c1.nodes[c1.head]?, c1.nodes[n]? with
    | some headN, some node1 =>
      -- node.next = self.head.next
      let c2 := setNode c1 n { node1 with next := headN.next }
      match c2.nodes[c2.head]? with
      | some headN2 =>
        -- self.head.next.prev = node
        match headN2.next with
        | none => none
        | some hn =>
          match c2.nodes[hn]? with
          | none => none
          | some hnN =>
            let c3 := setNode c2 hn { hnN with prev := some n }
            -- self.head.next = node
            match c3.nodes[c3.head]? with
            | some headN3 => some (setNode c3 c3.head { headN3 with next := some n })
            | none => none
      | none => none
    | _, _ => none

/-- `LRUCache._remove_node`: splice node `n` out by relinking its neighbors. -/
def LRUCache._remove_node (c : LRUCache) (n : Nat) : Option LRUCache :=
  match c.nodes[n]? with
  | none => none
  | some node =>
    match node.prev, node.next with
    | some p, some q =>
      match c.nodes[p]? with
      | none => none
      | some pN =>
        -- prev_node.next = next_node
        let c1 := setNode c p { pN with next := some q }
        match c1.nodes[q]? with
        | none => none
        | some qN =>
          -- next_node.prev = prev_node
          some (setNode c1 q { qN with prev := some p })
    | _, _ => none

/-- `LRUCache._move_to_head`: remove then re-insert at the head. -/
def LRUCache._move_to_head (c : LRUCache) (n : Nat) : Option LRUCache :=
  match c._remove_node n with
  | none => none
  | some c1 => c1._add_node n

/-- `LRUCache._pop_tail`: unlink and return `tail.prev`, the LRU node. -/
def LRUCache._pop_tail (c : LRUCache) : Option (LRUCache × Nat) :=
  match c.nodes[c.tail]? with
  | none => none
  | some tailN =>
    match tailN.prev with
    | none => none
    | some lru =>
      match c._remove_node lru with
      | none => none
      | some c1 => some (c1, lru)

/-- `LRUCache.get`: `-1` on a miss; on a hit, move the node to the head and
return its value (read after the move, as the source does). -/
def LRUCache.get (c : LRUCache) (key : Int) : Option (LRUCache × Int) :=
  match alookup c.cache key with
  | none => some (c, -1)
  | some n =>
    match c._move_to_head n with
    | none => none
    | some c1 =>
      match c1.nodes[n]? with
      | none => none
      | some node => some (c1, node.value)

/-- `LRUCache.put`: on an absent key, allocate the new node, evict the tail
node (and delete its key from the dict) when `len(cache) >= capacity`, then
link the new node at the head and bind it in the dict; on a present key,
overwrite the node's value in place and move it to the head. -/
def LRUCache.put (c : LRUCache) (key value : Int) : Option LRUCache :=
  match alookup c.cache key with
  | none =>
    -- new_node = _Node(key, value)
    let newId := c.nodes.size
    let c1 : LRUCache := { c with nodes := c.nodes.push ⟨key, value, none, none⟩ }
    let afterEvict : Option LRUCache :=
      if (c1.cache.length : Int) ≥ c1.capacity then
        match c1._pop_tail with
        | none => none
        | some (c2, tid) =>
          match c2.nodes[tid]? with
          | none => none
          | some tnode =>
            -- del self.cache[tail.key]  (KeyError when absent)
            match alookup c2.cache tnode.key with
            | none => none
            | some _ => some { c2 with cache := eraseKey c2.cache tnode.key }
      else some c1
    match afterEvict with
    | none => none
    | some c3 =>
      match c3._add_node newId with
      | none => none
      | some c4 => some { c4 with cache := dictSet c4.cache key newId }
  | some n =>
    match c.nodes[n]? with
    | none => none
    | some node =>
      -- node.value = value
      let c1 := setNode c n { node with value := value }
      c1._move_to_head n

/-- One public operation. -/
inductive Op where
  | get (key : Int)
  | put (key value : Int)
deriving DecidableEq

/-- Execute one operation for its state effect. -/
def stepOp (c : LRUCache) : Op → Option LRUCache
  | .get k =>
    match c.get k with
    | none => none
    | some (c1, _) => some c1
  | .put k v => c.put k v

/-- Execute a sequence of operations. -/
def runOps (c : LRUCache) : List Op → Option LRUCache
  | [] => some c
  | op :: ops =>
    match stepOp c op with
    | none => none
    | some c1 => runOps c1 ops

/-- The full sentinel-bounded chain of a purported data-node list. -/
def chainOf (c : LRUCache) (l : List Nat) : List Nat := c.head :: (l ++ [c.tail])

/-- Adjacency in the doubly linked list: `a.next = b` and `b.prev = a`. -/
def ndR (c : LRUCache) (a b : Nat) : Prop :=
  (nd c a).next = some b ∧ (nd c b).prev = some a

/-- The key/value view of a data-node list, MRU first. -/
def absState (c : LRUCache) (l : List Nat) : List (Int × Int) :=
  l.map (fun n => ((nd c n).key, (nd c n).value))

/-- Chase `next` handles from the head sentinel, collecting data nodes until
the tail sentinel; the fuel (arena size) makes this total. -/
def chaseFrom (c : LRUCache) : Nat → Nat → List Nat
  | 0, _ => []
  | fuel+1, i =>
    if i = c.tail then []
    else
      match (nd c i).next with
      | none => [i]
      | some j => i :: chaseFrom c fuel j

/-- The list of data-node handles currently linked between the sentinels. -/
def chainData (c : LRUCache) : List Nat :=
  match (nd c c.head).next with
  | none => []
  | some j => chaseFrom c c.nodes.size j

/-- Handle of the node a present key maps to. -/
def keyPresent (c : LRUCache) (k : Int) : Prop := (alookup c.cache k).isSome

/-- The value stored for a key, through the dict and the arena. -/
def lookupVal (c : LRUCache) (k : Int) : Option Int :=
  (alookup c.cache k).map (fun n => (nd c n).value)

/-- Well-formedness of a cache state, with `l` the data-node handles in
recency order (MRU first). -/
structure CacheInv (c : LRUCache) (l : List Nat) : Prop where
  nodup : (chainOf c l).Nodup
  bounds : ∀ i ∈ chainOf c l, i < c.nodes.size
  links : List.Chain' (ndR c) (chainOf c l)
  kNodup : (c.cache.map Prod.fst).Nodup
  d2l : ∀ e ∈ c.cache, e.2 ∈ l ∧ (nd c e.2).key = e.1
  l2d : ∀ n ∈ l, alookup c.cache ((nd c n).key) = some n
  sizeEq : c.cache.length = l.length
  sizeLe : (l.length : Int) ≤ c.capacity
  capPos : 0 < c.capacity

/-- The pure functional model of one operation on the MRU-first list of
key/value pairs, used as the refinement target. -/
def SpecStep (cap : Int) (s : List (Int × Int)) : Op → List (Int × Int)
  | .get k =>
    match alookup s k with
    | none => s
    | some v => (k, v) :: eraseKey s k
  | .put k v =>
    match alookup s k with
    | some _ => (k, v) :: eraseKey s k
    | none => if (s.length : Int) ≥ cap then (k, v) :: s.dropLast else (k, v) :: s

/-- Run the pure model over a sequence of operations. -/
def specRun (cap : Int) (s : List (Int × Int)) : List Op → List (Int × Int)
  | [] => s
  | op :: ops => specRun cap (SpecStep cap s op) ops

/-- Whether `op`, executed in model state `s`, touches key `k`: every `put`
touches its key, a `get` touches its key exactly on a hit. -/
def touchesKey (s : List (Int × Int)) (op : Op) (k : Int) : Bool :=
  match op with
  | .put k' _ => k' = k
  | .get k' => k' = k && (alookup s k').isSome

/-- Index of the last operation in `ops` (numbered from `i`) that touches
key `k`, when the run starts in model state `s`. -/
def lastTouchAux (cap : Int) (s : List (Int × Int)) (i : Nat) :
    List Op → Int → Option Nat
  | [], _ => none
  | op :: rest, k =>
    match lastTouchAux cap (SpecStep cap s op) (i+1) rest k with
    | some t => some t
    | none => if touchesKey s op k then some i else none

/-- Index of the most recent touch of key `k` in a run of `ops` from the
empty cache. -/
def lastTouch (cap : Int) (ops : List Op) (k : Int) : Option Nat :=
  lastTouchAux cap [] 0 ops k

/-! ### Association-list (dict) lemmas -/

theorem alookup_mem {β : Type} {d : List (Int × β)} {k : Int} {v : β}
    (h : alookup d k = some v) : (k, v) ∈ d := by
  induction d with
  | nil => simp [alookup] at h
  | cons e es ih =>
    by_cases he : e.1 = k
    · simp only [alookup, if_pos he, Option.some.injEq] at h
      cases e with
      | mk a b =>
        simp only at he h
        subst he
        subst h
        exact List.mem_cons_self _ _
    · simp only [alookup, if_neg he] at h
      exact List.mem_cons_of_mem _ (ih h)

theorem alookup_eq_none {β : Type} {d : List (Int × β)} {k : Int} :
    alookup d k = none ↔ ∀ e ∈ d, e.1 ≠ k := by
  induction d with
  | nil => simp [alookup]
  | cons e es ih =>
    by_cases he : e.1 = k <;> simp [alookup, he, ih]

theorem mem_alookup {β : Type} {d : List (Int × β)} {k : Int} {v : β}
    (hN : (d.map Prod.fst).Nodup) (h : (k, v) ∈ d) : alookup d k = some v := by
  induction d with
  | nil => simp at h
  | cons e es ih =>
    simp only [List.map_cons, List.nodup_cons] at hN
    rcases List.mem_cons.mp h with h | h
    · subst h; simp [alookup]
    · have he : e.1 ≠ k := by
        intro hk
        exact hN.1 (hk ▸ (List.mem_map.mpr ⟨(k, v), h, rfl⟩))
      simp [alookup, he, ih hN.2 h]

theorem alookup_append_some {β : Type} {d₁ d₂ : List (Int × β)} {k : Int} {v : β}
    (h : alookup d₁ k = some v) : alookup (d₁ ++ d₂) k = some v := by
  induction d₁ with
  | nil => simp [alookup] at h
  | cons e es ih =>
    by_cases he : e.1 = k <;> simp_all [alookup, he]

theorem alookup_append_none {β : Type} {d₁ d₂ : List (Int × β)} {k : Int}
    (h : alookup d₁ k = none) : alookup (d₁ ++ d₂) k = alookup d₂ k := by
  induction d₁ with
  | nil => simp
  | cons e es ih =>
    by_cases he : e.1 = k <;> simp_all [alookup, he]

theorem eraseKey_sublist {β : Type} (d : List (Int × β)) (k : Int) :
    (eraseKey d k).Sublist d := by
  induction d with
  | nil => simp [eraseKey]
  | cons e es ih =>
    by_cases he : e.1 = k
    · simp only [eraseKey, if_pos he]
      exact List.sublist_cons_self e es
    · simpa [eraseKey, he] using ih.cons₂ e

theorem length_eraseKey {β : Type} {d : List (Int × β)} {k : Int} {v : β}
    (h : alookup d k = some v) : (eraseKey d k).length + 1 = d.length := by
  induction d with
  | nil => simp [alookup] at h
  | cons e es ih =>
    by_cases he : e.1 = k
    · simp [eraseKey, he]
    · simp only [alookup, he, if_false] at h
      simp [eraseKey, he, ih h]

theorem mem_eraseKey {β : Type} {d : List (Int × β)} {k : Int} {e : Int × β}
    (hN : (d.map Prod.fst).Nodup) :
    e ∈ eraseKey d k ↔ e ∈ d ∧ e.1 ≠ k := by
  induction d with
  | nil => simp [eraseKey]
  | cons f fs ih =>
    simp only [List.map_cons, List.nodup_cons] at hN
    by_cases hf : f.1 = k
    · subst hf
      simp only [eraseKey, if_pos rfl]
      constructor
      · intro he
        refine ⟨List.mem_cons_of_mem _ he, ?_⟩
        intro hek
        exact hN.1 (hek ▸ (List.mem_map.mpr ⟨e, he, rfl⟩))
      · rintro ⟨he, hek⟩
        rcases List.mem_cons.mp he with rfl | he
        · exact absurd rfl hek
        · exact he
    · simp only [eraseKey, if_neg hf, List.mem_cons, ih hN.2]
      constructor
      · rintro (rfl | ⟨he, hek⟩)
        · exact ⟨Or.inl rfl, hf⟩
        · exact ⟨Or.inr he, hek⟩
      · rintro ⟨rfl | he, hek⟩
        · exact Or.inl rfl
        · exact Or.inr ⟨he, hek⟩

theorem keys_eraseKey_nodup {β : Type} {d : List (Int × β)} {k : Int}
    (hN : (d.map Prod.fst).Nodup) : ((eraseKey d k).map Prod.fst).Nodup :=
  ((eraseKey_sublist d k).map Prod.fst).nodup hN

theorem alookup_eraseKey_self {β : Type} {d : List (Int × β)} {k : Int}
    (hN : (d.map Prod.fst).Nodup) : alookup (eraseKey d k) k = none := by
  rw [alookup_eq_none]
  intro e he
  exact ((mem_eraseKey hN).mp he).2

theorem alookup_eraseKey_ne {β : Type} {d : List (Int × β)} {k k' : Int}
    (hk : k' ≠ k) : alookup (eraseKey d k) k' = alookup d k' := by
  induction d with
  | nil => rfl
  | cons e es ih =>
    by_cases he : e.1 = k
    · have hne : e.1 ≠ k' := fun h => hk (h ▸ he)
      rw [eraseKey, if_pos he, alookup, if_neg hne]
    · rw [eraseKey, if_neg he]
      by_cases he' : e.1 = k' <;> simp [alookup, he', ih]

theorem dictSet_absent {β : Type} {d : List (Int × β)} {k : Int} (v : β)
    (h : alookup d k = none) : dictSet d k v = d ++ [(k, v)] := by
  simp [dictSet, h]

/-! ### Arena access lemmas -/

theorem setNode_capacity (c : LRUCache) (i : Nat) (x : Node) :
    (setNode c i x).capacity = c.capacity := rfl

theorem setNode_cache (c : LRUCache) (i : Nat) (x : Node) :
    (setNode c i x).cache = c.cache := rfl

theorem setNode_head (c : LRUCache) (i : Nat) (x : Node) :
    (setNode c i x).head = c.head := rfl

theorem setNode_tail (c : LRUCache) (i : Nat) (x : Node) :
    (setNode c i x).tail = c.tail := rfl

theorem setNode_size (c : LRUCache) (i : Nat) (x : Node) :
    (setNode c i x).nodes.size = c.nodes.size := by
  simp [setNode, Array.setD]
  split <;> simp

theorem nd_setNode_self {c : LRUCache} {i : Nat} (x : Node) (h : i < c.nodes.size) :
    nd (setNode c i x) i = x := by
  simp [nd, setNode, Array.setD, h, Array.getD, Array.get_set_eq]

theorem nd_setNode_ne {c : LRUCache} {i j : Nat} (x : Node) (h : j ≠ i) :
    nd (setNode c i x) j = nd c j := by
  simp only [nd, setNode, Array.setD]
  split
  · next hi =>
    simp only [Array.getD, Array.size_set]
    split
    · next hj => exact Array.get_set_ne _ _ _ hj (Ne.symm h)
    · rfl
  · rfl

theorem getElemQ_eq_nd {c : LRUCache} {i : Nat} (h : i < c.nodes.size) :
    c.nodes[i]? = some (nd c i) := by
  simp [nd, Array.getElem?_eq_getElem, h, Array.getD, dif_pos h]

/-! ### Chain transfer -/

theorem chain_transfer {α : Type} {R S : α → α → Prop} :
    ∀ {l : List α}, (∀ a ∈ l, ∀ b ∈ l, R a b → S a b) →
      List.Chain' R l → List.Chain' S l
  | [], _, _ => List.chain'_nil
  | [_], _, _ => List.chain'_singleton _
  | a :: b :: t, h, hch => by
    rw [List.chain'_cons] at hch ⊢
    refine ⟨h a (by simp) b (by simp) hch.1, chain_transfer ?_ hch.2⟩
    intro x hx y hy
    exact h x (List.mem_cons_of_mem _ hx) y (List.mem_cons_of_mem _ hy)

/-- Adjacency only reads the `prev`/`next` fields, so it transfers along any
pointer-preserving update. -/
theorem ndR_congr {c c' : LRUCache}
    (h : ∀ i, (nd c' i).next = (nd c i).next ∧ (nd c' i).prev = (nd c i).prev)
    {a b : Nat} : ndR c a b → ndR c' a b := by
  intro ⟨h1, h2⟩
  exact ⟨(h a).1.trans h1, (h b).2.trans h2⟩

/-! ### Frames preserved by the list surgery -/

/-- The surgery on `prev`/`next` never changes a key or a value. -/
def sameKV (c c' : LRUCache) : Prop :=
  ∀ i, (nd c' i).key = (nd c i).key ∧ (nd c' i).value = (nd c i).value

/-- The surgery never changes capacity, dict, sentinels or arena size. -/
def sameShape (c c' : LRUCache) : Prop :=
  c'.capacity = c.capacity ∧ c'.cache = c.cache ∧ c'.head = c.head ∧
    c'.tail = c.tail ∧ c'.nodes.size = c.nodes.size

theorem sameKV_refl (c : LRUCache) : sameKV c c := fun _ => ⟨rfl, rfl⟩

theorem sameKV_trans {c c' c'' : LRUCache} (h : sameKV c c') (h' : sameKV c' c'') :
    sameKV c c'' := fun i =>
  ⟨(h' i).1.trans (h i).1, (h' i).2.trans (h i).2⟩

theorem sameShape_refl (c : LRUCache) : sameShape c c := ⟨rfl, rfl, rfl, rfl, rfl⟩

theorem sameShape_trans {c c' c'' : LRUCache} (h : sameShape c c') (h' : sameShape c' c'') :
    sameShape c c'' :=
  ⟨h'.1.trans h.1, h'.2.1.trans h.2.1, h'.2.2.1.trans h.2.2.1,
    h'.2.2.2.1.trans h.2.2.2.1, h'.2.2.2.2.trans h.2.2.2.2⟩

/-- `_remove_node` on a node linked between `l₁` and `l₂` succeeds, splices
exactly that node out, and changes nothing but two neighbor pointers. -/
theorem remove_spec (c : LRUCache) (l₁ l₂ : List Nat) (n : Nat)
    (hnd : (chainOf c (l₁ ++ n :: l₂)).Nodup)
    (hb : ∀ i ∈ chainOf c (l₁ ++ n :: l₂), i < c.nodes.size)
    (hch : List.Chain' (ndR c) (chainOf c (l₁ ++ n :: l₂))) :
    ∃ c', c._remove_node n = some c' ∧ sameShape c c' ∧ sameKV c c' ∧
      List.Chain' (ndR c') (chainOf c (l₁ ++ l₂)) := by
  have hchain : chainOf c (l₁ ++ n :: l₂) = (c.head :: l₁) ++ n :: (l₂ ++ [c.tail]) := by
    simp [chainOf]
  rw [hchain] at hnd hb hch
  set A := c.head :: l₁ with hA_def
  set B := l₂ ++ [c.tail] with hB_def
  have hAne : A ≠ [] := by simp [hA_def]
  obtain ⟨fB, B', hB⟩ : ∃ fB B', B = fB :: B' := by
    cases l₂ with
    | nil => exact ⟨c.tail, [], rfl⟩
    | cons x xs => exact ⟨x, xs ++ [c.tail], rfl⟩
  -- decompose the chain relation
  obtain ⟨hchA, hchnB, hglue⟩ := List.chain'_append.mp hch
  set p := A.getLast hAne with hp_def
  have hp : A.getLast? = some p := List.getLast?_eq_getLast_of_ne_nil hAne
  have hpA : p ∈ A := List.getLast_mem hAne
  have hpn : ndR c p n := hglue p hp n rfl
  have hnf : ndR c n fB := by
    rw [hB, List.chain'_cons] at hchnB
    exact hchnB.1
  have hchB : List.Chain' (ndR c) B := hchnB.tail
  have hfBB : fB ∈ B := by rw [hB]; exact List.mem_cons_self _ _
  -- nodup decompositions
  rw [List.nodup_middle] at hnd
  have hnAB : n ∉ A ++ B := (List.nodup_cons.mp hnd).1
  have hnA : n ∉ A := fun h => hnAB (List.mem_append_left _ h)
  have hnB : n ∉ B := fun h => hnAB (List.mem_append_right _ h)
  obtain ⟨hndA, hndB, hdisj⟩ := List.nodup_append.mp (List.nodup_cons.mp hnd).2
  have hpfB : p ≠ fB := fun h => hdisj hpA (h ▸ hfBB)
  have hpn' : p ≠ n := fun h => hnA (h ▸ hpA)
  have hfBn : fB ≠ n := fun h => hnB (h ▸ hfBB)
  -- bounds
  have hbn : n < c.nodes.size := hb n (List.mem_append_right _ (List.mem_cons_self _ _))
  have hbp : p < c.nodes.size := hb p (List.mem_append_left _ hpA)
  have hbfB : fB < c.nodes.size := hb fB (List.mem_append_right _ (List.mem_cons_of_mem _ hfBB))
  -- run the operation
  have hread1 : c.nodes[n]? = some (nd c n) := getElemQ_eq_nd hbn
  have hread2 : c.nodes[p]? = some (nd c p) := getElemQ_eq_nd hbp
  have hread3 : (setNode c p { nd c p with next := some fB }).nodes[fB]? =
      some (nd c fB) := by
    rw [getElemQ_eq_nd (by rw [setNode_size]; exact hbfB), nd_setNode_ne _ (Ne.symm hpfB)]
  refine ⟨setNode (setNode c p { nd c p with next := some fB }) fB
            { nd c fB with prev := some p }, ?_, ?_, ?_, ?_⟩
  · unfold LRUCache._remove_node
    simp only [hread1, hpn.2, hnf.1, hread2, hread3]
  · exact ⟨rfl, rfl, rfl, rfl, by rw [setNode_size, setNode_size]⟩
  · intro i
    by_cases hif : i = fB
    · subst hif
      rw [nd_setNode_self _ (by rw [setNode_size]; exact hbfB)]
      exact ⟨rfl, rfl⟩
    · by_cases hip : i = p
      · subst hip
        rw [nd_setNode_ne _ hif, nd_setNode_self _ hbp]
        exact ⟨rfl, rfl⟩
      · rw [nd_setNode_ne _ hif, nd_setNode_ne _ hip]
        exact ⟨rfl, rfl⟩
  · -- the new chain is linked
    have hnd_fB : nd (setNode (setNode c p { nd c p with next := some fB }) fB
        { nd c fB with prev := some p }) fB = { nd c fB with prev := some p } :=
      nd_setNode_self _ (by rw [setNode_size]; exact hbfB)
    have hnd_p : nd (setNode (setNode c p { nd c p with next := some fB }) fB
        { nd c fB with prev := some p }) p = { nd c p with next := some fB } := by
      rw [nd_setNode_ne _ hpfB, nd_setNode_self _ hbp]
    have hnd_other : ∀ i, i ≠ fB → i ≠ p →
        nd (setNode (setNode c p { nd c p with next := some fB }) fB
          { nd c fB with prev := some p }) i = nd c i := by
      intro i h1 h2
      rw [nd_setNode_ne _ h1, nd_setNode_ne _ h2]
    have hgoal : chainOf c (l₁ ++ l₂) = A ++ B := by
      rw [hA_def, hB_def]
      simp [chainOf]
    rw [hgoal]
    refine List.Chain'.append ?_ ?_ ?_
    · refine chain_transfer ?_ hchA
      intro a ha b hb' hr
      have hafB : a ≠ fB := fun h => hdisj ha (h ▸ hfBB)
      have hbfB' : b ≠ fB := fun h => hdisj hb' (h ▸ hfBB)
      by_cases hap : a = p
      · subst hap
        exfalso
        have : n = b := Option.some.inj (hpn.1.symm.trans hr.1)
        exact hnA (this ▸ hb')
      · constructor
        · rw [hnd_other a hafB hap]
          exact hr.1
        · by_cases hbp : b = p
          · subst hbp
            rw [hnd_p]
            exact hr.2
          · rw [hnd_other b hbfB' hbp]
            exact hr.2
    · refine chain_transfer ?_ hchB
      intro a ha b hb' hr
      have hap : a ≠ p := fun h => hdisj hpA (h ▸ ha)
      have hbp : b ≠ p := fun h => hdisj hpA (h ▸ hb')
      by_cases hbf : b = fB
      · subst hbf
        exfalso
        have : n = a := Option.some.inj (hnf.2.symm.trans hr.2)
        exact hnB (this ▸ ha)
      · constructor
        · by_cases haf : a = fB
          · subst haf
            rw [hnd_fB]
            exact hr.1
          · rw [hnd_other a haf hap]
            exact hr.1
        · rw [hnd_other b hbf hbp]
          exact hr.2
    · intro x hx y hy
      rw [hp] at hx
      rw [hB] at hy
      obtain rfl : x = p := by cases hx; rfl
      obtain rfl : y = fB := by cases hy; rfl
      constructor
      · rw [hnd_p]
      · rw [hnd_fB]

/-- `_add_node` on a valid unlinked node succeeds, links it right after the
head sentinel, and changes nothing but three pointers. -/
theorem add_spec (c : LRUCache) (l : List Nat) (n : Nat)
    (hnd : (chainOf c l).Nodup)
    (hb : ∀ i ∈ chainOf c l, i < c.nodes.size)
    (hch : List.Chain' (ndR c) (chainOf c l))
    (hn : n < c.nodes.size) (hnm : n ∉ chainOf c l) :
    ∃ c', c._add_node n = some c' ∧ sameShape c c' ∧ sameKV c c' ∧
      List.Chain' (ndR c') (chainOf c (n :: l)) := by
  obtain ⟨f, rest, hfr⟩ : ∃ f rest, l ++ [c.tail] = f :: rest := by
    cases l with
    | nil => exact ⟨c.tail, [], rfl⟩
    | cons x xs => exact ⟨x, xs ++ [c.tail], rfl⟩
  have hch' : List.Chain' (ndR c) (c.head :: f :: rest) := by
    rw [← hfr]
    exact hch
  have hnd' : (c.head :: f :: rest).Nodup := by
    rw [← hfr]
    exact hnd
  have hnm' : n ∉ c.head :: f :: rest := by
    rw [← hfr]
    exact hnm
  have hb' : ∀ i ∈ c.head :: f :: rest, i < c.nodes.size := by
    rw [← hfr]
    exact hb
  have hR0 : ndR c c.head f := (List.chain'_cons.mp hch').1
  have hhf : (nd c c.head).next = some f := hR0.1
  have hfp : (nd c f).prev = some c.head := hR0.2
  have hnh : n ≠ c.head := fun h => hnm' (h ▸ List.mem_cons_self _ _)
  have hnf' : n ≠ f := fun h =>
    hnm' (h ▸ List.mem_cons_of_mem _ (List.mem_cons_self _ _))
  have hnrest : n ∉ rest := fun h =>
    hnm' (List.mem_cons_of_mem _ (List.mem_cons_of_mem _ h))
  have hheadrest : c.head ∉ f :: rest := (List.nodup_cons.mp hnd').1
  have hhf' : c.head ≠ f := fun h => hheadrest (h ▸ List.mem_cons_self _ _)
  have hfrest : f ∉ rest := (List.nodup_cons.mp (List.nodup_cons.mp hnd').2).1
  have hbh : c.head < c.nodes.size := hb' c.head (List.mem_cons_self _ _)
  have hbf : f < c.nodes.size := hb' f (List.mem_cons_of_mem _ (List.mem_cons_self _ _))
  -- the four assignments
  have hr1 : c.nodes[n]? = some (nd c n) := getElemQ_eq_nd hn
  have hr2 : (setNode c n { nd c n with prev := some c.head }).nodes[c.head]? =
      some (nd c c.head) := by
    rw [getElemQ_eq_nd (by rw [setNode_size]; exact hbh), nd_setNode_ne _ (Ne.symm hnh)]
  have hr3 : (setNode c n { nd c n with prev := some c.head }).nodes[n]? =
      some { nd c n with prev := some c.head } := by
    rw [getElemQ_eq_nd (by rw [setNode_size]; exact hn), nd_setNode_self _ hn]
  have hr4 : (setNode (setNode c n { nd c n with prev := some c.head }) n
      { nd c n with prev := some c.head, next := some f }).nodes[c.head]? =
      some (nd c c.head) := by
    rw [getElemQ_eq_nd (by rw [setNode_size, setNode_size]; exact hbh),
      nd_setNode_ne _ (Ne.symm hnh), nd_setNode_ne _ (Ne.symm hnh)]
  have hr5 : (setNode (setNode c n { nd c n with prev := some c.head }) n
      { nd c n with prev := some c.head, next := some f }).nodes[f]? =
      some (nd c f) := by
    rw [getElemQ_eq_nd (by rw [setNode_size, setNode_size]; exact hbf),
      nd_setNode_ne _ (Ne.symm hnf'), nd_setNode_ne _ (Ne.symm hnf')]
  have hr6 : (setNode (setNode (setNode c n { nd c n with prev := some c.head }) n
      { nd c n with prev := some c.head, next := some f }) f
      { nd c f with prev := some n }).nodes[c.head]? = some (nd c c.head) := by
    rw [getElemQ_eq_nd (by rw [setNode_size, setNode_size, setNode_size]; exact hbh),
      nd_setNode_ne _ hhf', nd_setNode_ne _ (Ne.symm hnh), nd_setNode_ne _ (Ne.symm hnh)]
  refine ⟨setNode (setNode (setNode (setNode c n { nd c n with prev := some c.head }) n
      { nd c n with prev := some c.head, next := some f }) f
      { nd c f with prev := some n }) c.head
      { nd c c.head with next := some n }, ?_, ?_, ?_, ?_⟩
  · unfold LRUCache._add_node
    simp only [setNode_head, hr1, hr2, hr3, hhf, hr4, hr5, hr6]
  · exact ⟨rfl, rfl, rfl, rfl, by rw [setNode_size, setNode_size, setNode_size, setNode_size]⟩
  · intro i
    by_cases hih : i = c.head
    · subst hih
      rw [nd_setNode_self _ (by rw [setNode_size, setNode_size, setNode_size]; exact hbh)]
      exact ⟨rfl, rfl⟩
    · by_cases hif : i = f
      · subst hif
        rw [nd_setNode_ne _ hih,
          nd_setNode_self _ (by rw [setNode_size, setNode_size]; exact hbf)]
        exact ⟨rfl, rfl⟩
      · by_cases hin : i = n
        · subst hin
          rw [nd_setNode_ne _ hih, nd_setNode_ne _ hif,
            nd_setNode_self _ (by rw [setNode_size]; exact hn)]
          exact ⟨rfl, rfl⟩
        · rw [nd_setNode_ne _ hih, nd_setNode_ne _ hif, nd_setNode_ne _ hin,
            nd_setNode_ne _ hin]
          exact ⟨rfl, rfl⟩
  · -- the new chain is linked
    have hnd_head : nd (setNode (setNode (setNode (setNode c n
        { nd c n with prev := some c.head }) n
        { nd c n with prev := some c.head, next := some f }) f
        { nd c f with prev := some n }) c.head
        { nd c c.head with next := some n }) c.head =
        { nd c c.head with next := some n } :=
      nd_setNode_self _ (by rw [setNode_size, setNode_size, setNode_size]; exact hbh)
    have hnd_f : nd (setNode (setNode (setNode (setNode c n
        { nd c n with prev := some c.head }) n
        { nd c n with prev := some c.head, next := some f }) f
        { nd c f with prev := some n }) c.head
        { nd c c.head with next := some n }) f = { nd c f with prev := some n } := by
      rw [nd_setNode_ne _ (Ne.symm hhf'),
        nd_setNode_self _ (by rw [setNode_size, setNode_size]; exact hbf)]
    have hnd_n : nd (setNode (setNode (setNode (setNode c n
        { nd c n with prev := some c.head }) n
        { nd c n with prev := some c.head, next := some f }) f
        { nd c f with prev := some n }) c.head
        { nd c c.head with next := some n }) n =
        { nd c n with prev := some c.head, next := some f } := by
      rw [nd_setNode_ne _ hnh, nd_setNode_ne _ hnf',
        nd_setNode_self _ (by rw [setNode_size]; exact hn)]
    have hnd_other : ∀ i, i ≠ c.head → i ≠ f → i ≠ n →
        nd (setNode (setNode (setNode (setNode c n
          { nd c n with prev := some c.head }) n
          { nd c n with prev := some c.head, next := some f }) f
          { nd c f with prev := some n }) c.head
          { nd c c.head with next := some n }) i = nd c i := by
      intro i h1 h2 h3
      rw [nd_setNode_ne _ h1, nd_setNode_ne _ h2, nd_setNode_ne _ h3, nd_setNode_ne _ h3]
    have hgoal : chainOf c (n :: l) = c.head :: n :: f :: rest := by
      rw [chainOf]
      simp only [List.cons_append, hfr]
    rw [hgoal]
    rw [List.chain'_cons]
    constructor
    · constructor
      · rw [hnd_head]
      · rw [hnd_n]
    rw [List.chain'_cons]
    constructor
    · constructor
      · rw [hnd_n]
      · rw [hnd_f]
    · -- the old segment after the head sentinel is untouched
      refine chain_transfer ?_ hch'.tail
      intro a ha b hb2 hr
      have hah : a ≠ c.head := fun h => hheadrest (h ▸ ha)
      have hbh2 : b ≠ c.head := fun h => hheadrest (h ▸ hb2)
      have han : a ≠ n := fun h => hnm' (List.mem_cons_of_mem _ (h ▸ ha))
      have hbn2 : b ≠ n := fun h => hnm' (List.mem_cons_of_mem _ (h ▸ hb2))
      by_cases hbf2 : b = f
      · subst hbf2
        exfalso
        have : c.head = a := Option.some.inj (hfp.symm.trans hr.2)
        exact hah this.symm
      · constructor
        · by_cases haf : a = f
          · subst haf
            rw [hnd_f]
            exact hr.1
          · rw [hnd_other a hah haf han]
            exact hr.1
        · rw [hnd_other b hbh2 hbf2 hbn2]
          exact hr.2

theorem nd_push_lt {c : LRUCache} {i : Nat} (x : Node) (h : i < c.nodes.size) :
    nd { c with nodes := c.nodes.push x } i = nd c i := by
  simp only [nd, Array.getD, Array.size_push]
  rw [dif_pos (Nat.lt_succ_of_lt h), dif_pos h]
  exact Array.getElem_push_lt _ _ _ h

theorem nd_push_eq {c : LRUCache} (x : Node) :
    nd { c with nodes := c.nodes.push x } c.nodes.size = x := by
  simp only [nd, Array.getD, Array.size_push]
  rw [dif_pos (Nat.lt_succ_self _)]
  exact Array.getElem_push_eq _ _

/-- `_move_to_head` on a linked node: splice out and relink at the head. -/
theorem move_spec (c : LRUCache) (l₁ l₂ : List Nat) (n : Nat)
    (hnd : (chainOf c (l₁ ++ n :: l₂)).Nodup)
    (hb : ∀ i ∈ chainOf c (l₁ ++ n :: l₂), i < c.nodes.size)
    (hch : List.Chain' (ndR c) (chainOf c (l₁ ++ n :: l₂))) :
    ∃ c', c._move_to_head n = some c' ∧ sameShape c c' ∧ sameKV c c' ∧
      List.Chain' (ndR c') (chainOf c (n :: (l₁ ++ l₂))) := by
  obtain ⟨c1, hrun1, hsh1, hkv1, hch1⟩ := remove_spec c l₁ l₂ n hnd hb hch
  have hco : ∀ L, chainOf c1 L = chainOf c L := by
    intro L
    rw [chainOf, chainOf, hsh1.2.2.1, hsh1.2.2.2.1]
  have hsub : List.Sublist (chainOf c (l₁ ++ l₂)) (chainOf c (l₁ ++ n :: l₂)) := by
    rw [chainOf, chainOf]
    exact (((List.Sublist.refl l₁).append
      (List.sublist_cons_self n l₂)).append (List.Sublist.refl [c.tail])).cons₂ c.head
  have hnm : n ∉ chainOf c (l₁ ++ l₂) := by
    have he : chainOf c (l₁ ++ n :: l₂) = (c.head :: l₁) ++ n :: (l₂ ++ [c.tail]) := by
      simp [chainOf]
    have he2 : chainOf c (l₁ ++ l₂) = (c.head :: l₁) ++ (l₂ ++ [c.tail]) := by
      simp [chainOf]
    rw [he, List.nodup_middle] at hnd
    rw [he2]
    exact (List.nodup_cons.mp hnd).1
  obtain ⟨c2, hrun2, hsh2, hkv2, hch2⟩ := add_spec c1 (l₁ ++ l₂) n
    (by rw [hco]; exact hnd.sublist hsub)
    (by rw [hco, hsh1.2.2.2.2]; exact fun i hi => hb i (hsub.subset hi))
    (by rw [hco]; exact hch1)
    (by rw [hsh1.2.2.2.2]
        exact hb n (by rw [chainOf]
                       exact List.mem_cons_of_mem _
                         (List.mem_append_left _ (List.mem_append_right _
                           (List.mem_cons_self _ _)))))
    (by rw [hco]; exact hnm)
  refine ⟨c2, ?_, sameShape_trans hsh1 hsh2, sameKV_trans hkv1 hkv2, ?_⟩
  · unfold LRUCache._move_to_head
    rw [hrun1]
    exact hrun2
  · rw [← hco]
    exact hch2

/-- `_pop_tail` on a nonempty chain returns the node before the tail
sentinel and splices it out. -/
theorem pop_spec (c : LRUCache) (l' : List Nat) (m : Nat)
    (hnd : (chainOf c (l' ++ [m])).Nodup)
    (hb : ∀ i ∈ chainOf c (l' ++ [m]), i < c.nodes.size)
    (hch : List.Chain' (ndR c) (chainOf c (l' ++ [m]))) :
    ∃ c', c._pop_tail = some (c', m) ∧ sameShape c c' ∧ sameKV c c' ∧
      List.Chain' (ndR c') (chainOf c l') := by
  have hsplit : chainOf c (l' ++ [m]) = ((c.head :: l') ++ [m]) ++ [c.tail] := by
    simp [chainOf]
  have htail_prev : (nd c c.tail).prev = some m := by
    have hch2 := hch
    rw [hsplit] at hch2
    obtain ⟨_, _, hglue⟩ := List.chain'_append.mp hch2
    have hlast : ((c.head :: l') ++ [m]).getLast? = some m := List.getLast?_concat _
    exact (hglue m hlast c.tail rfl).2
  have hbt : c.tail < c.nodes.size := by
    refine hb c.tail ?_
    rw [chainOf]
    exact List.mem_cons_of_mem _ (List.mem_append_right _ (List.mem_cons_self _ _))
  obtain ⟨c1, hrun1, hsh1, hkv1, hch1⟩ := remove_spec c l' [] m hnd hb hch
  refine ⟨c1, ?_, hsh1, hkv1, ?_⟩
  · unfold LRUCache._pop_tail
    simp only [getElemQ_eq_nd hbt, htail_prev, hrun1]
  · have : l' ++ [] = l' := List.append_nil l'
    rw [← this]
    exact hch1

/-! ### Invariant bookkeeping -/

theorem mem_chainOf_of_mem {c : LRUCache} {l : List Nat} {n : Nat} (h : n ∈ l) :
    n ∈ chainOf c l := by
  rw [chainOf]
  exact List.mem_cons_of_mem _ (List.mem_append_left _ h)

theorem head_mem_chainOf (c : LRUCache) (l : List Nat) : c.head ∈ chainOf c l :=
  List.mem_cons_self _ _

theorem tail_mem_chainOf (c : LRUCache) (l : List Nat) : c.tail ∈ chainOf c l := by
  rw [chainOf]
  exact List.mem_cons_of_mem _ (List.mem_append_right _ (List.mem_cons_self _ _))

theorem inv_l_nodup {c : LRUCache} {l : List Nat} (hInv : CacheInv c l) : l.Nodup := by
  have h := hInv.nodup
  rw [chainOf] at h
  exact ((List.nodup_append.mp (List.nodup_cons.mp h).2).1)

theorem inv_keyInj {c : LRUCache} {l : List Nat} (hInv : CacheInv c l)
    {n₁ n₂ : Nat} (h₁ : n₁ ∈ l) (h₂ : n₂ ∈ l) (hk : (nd c n₁).key = (nd c n₂).key) :
    n₁ = n₂ := by
  have e₁ := hInv.l2d n₁ h₁
  have e₂ := hInv.l2d n₂ h₂
  rw [hk] at e₁
  exact Option.some.inj (e₁.symm.trans e₂)

theorem chain_nodup_cons {c : LRUCache} {l : List Nat} {n : Nat}
    (h : (chainOf c l).Nodup) (hn : n ∉ chainOf c l) : (chainOf c (n :: l)).Nodup := by
  rw [chainOf] at h hn ⊢
  rw [List.nodup_cons] at h ⊢
  simp only [List.mem_cons, not_or] at hn
  obtain ⟨hn1, hn2⟩ := hn
  constructor
  · simp only [List.cons_append, List.mem_cons, not_or]
    exact ⟨fun hh => hn1 hh.symm, h.1⟩
  · rw [List.cons_append, List.nodup_cons]
    exact ⟨hn2, h.2⟩

/-- Rebuild the invariant after a pure list surgery that permutes the data
nodes and changes neither the dict nor any key/value. -/
theorem inv_rebuild {c c' : LRUCache} {l l' : List Nat}
    (hInv : CacheInv c l) (hsh : sameShape c c') (hkv : sameKV c c')
    (hperm : l'.Perm l) (hch : List.Chain' (ndR c') (chainOf c l')) :
    CacheInv c' l' := by
  obtain ⟨hcap, hcache, hhead, htail, hsize⟩ := hsh
  have hco : ∀ L, chainOf c' L = chainOf c L := by
    intro L
    rw [chainOf, chainOf, hhead, htail]
  have hchperm : (chainOf c l').Perm (chainOf c l) := by
    rw [chainOf, chainOf]
    exact ((hperm.append (List.Perm.refl _)).cons _)
  refine ⟨?_, ?_, ?_, ?_, ?_, ?_, ?_, ?_, ?_⟩
  · rw [hco]
    exact hchperm.symm.nodup hInv.nodup
  · intro i hi
    rw [hco] at hi
    rw [hsize]
    exact hInv.bounds i (hchperm.subset hi)
  · rw [hco]
    exact hch
  · rw [hcache]
    exact hInv.kNodup
  · intro e he
    rw [hcache] at he
    obtain ⟨hm, hk⟩ := hInv.d2l e he
    exact ⟨hperm.mem_iff.mpr hm, ((hkv e.2).1).trans hk⟩
  · intro n hn
    rw [hcache, (hkv n).1]
    exact hInv.l2d n (hperm.mem_iff.mp hn)
  · rw [hcache, hperm.length_eq]
    exact hInv.sizeEq
  · rw [hperm.length_eq, hcap]
    exact hInv.sizeLe
  · rw [hcap]
    exact hInv.capPos

/-- `_move_to_head` on a present node, at the invariant level. -/
theorem move_rebuild {c : LRUCache} {l : List Nat} {n : Nat}
    (hInv : CacheInv c l) (hn : n ∈ l) :
    ∃ c', c._move_to_head n = some c' ∧ CacheInv c' (n :: l.erase n) ∧
      c'.cache = c.cache ∧ c'.capacity = c.capacity ∧ c'.head = c.head ∧
      c'.tail = c.tail ∧ c'.nodes.size = c.nodes.size ∧ sameKV c c' := by
  obtain ⟨l₁, l₂, hsp⟩ := List.append_of_mem hn
  have herase : l.erase n = l₁ ++ l₂ := by
    have hnd := inv_l_nodup hInv
    rw [hsp] at hnd ⊢
    have hn1 : n ∉ l₁ := by
      intro hmem
      rw [List.nodup_append] at hnd
      exact hnd.2.2 hmem (List.mem_cons_self _ _)
    rw [List.erase_append_right _ hn1, List.erase_cons_head]
  obtain ⟨c', hrun, hsh, hkv, hch⟩ := move_spec c l₁ l₂ n
    (by rw [← hsp]; exact hInv.nodup)
    (by rw [← hsp]; exact hInv.bounds)
    (by rw [← hsp]; exact hInv.links)
  have hperm : (n :: (l₁ ++ l₂)).Perm l := by
    rw [hsp]
    exact List.perm_middle.symm
  have hInv' : CacheInv c' (n :: l.erase n) := by
    rw [herase]
    exact inv_rebuild hInv hsh hkv hperm hch
  exact ⟨c', hrun, hInv', hsh.2.1, hsh.1, hsh.2.2.1, hsh.2.2.2.1, hsh.2.2.2.2, hkv⟩

/-- Overwriting one node's value preserves the invariant verbatim. -/
theorem inv_setValue {c : LRUCache} {l : List Nat} {n : Nat} (v : Int)
    (hInv : CacheInv c l) (hn : n < c.nodes.size) :
    CacheInv (setNode c n { nd c n with value := v }) l := by
  have hkey : ∀ i, (nd (setNode c n { nd c n with value := v }) i).key = (nd c i).key := by
    intro i
    by_cases hi : i = n
    · subst hi
      rw [nd_setNode_self _ hn]
    · rw [nd_setNode_ne _ hi]
  have hptr : ∀ i, (nd (setNode c n { nd c n with value := v }) i).next = (nd c i).next ∧
      (nd (setNode c n { nd c n with value := v }) i).prev = (nd c i).prev := by
    intro i
    by_cases hi : i = n
    · subst hi
      rw [nd_setNode_self _ hn]
      exact ⟨rfl, rfl⟩
    · rw [nd_setNode_ne _ hi]
      exact ⟨rfl, rfl⟩
  have hco : ∀ L, chainOf (setNode c n { nd c n with value := v }) L = chainOf c L :=
    fun _ => rfl
  refine ⟨?_, ?_, ?_, ?_, ?_, ?_, ?_, ?_, ?_⟩
  · rw [hco]
    exact hInv.nodup
  · intro i hi
    rw [hco] at hi
    rw [setNode_size]
    exact hInv.bounds i hi
  · rw [hco]
    exact chain_transfer (fun a _ b _ hr => ndR_congr hptr hr) hInv.links
  · exact hInv.kNodup
  · intro e he
    obtain ⟨hm, hk⟩ := hInv.d2l e he
    exact ⟨hm, (hkey e.2).trans hk⟩
  · intro m hm
    rw [setNode_cache, hkey m]
    exact hInv.l2d m hm
  · exact hInv.sizeEq
  · exact hInv.sizeLe
  · exact hInv.capPos

/-- Allocating a fresh (unlinked) node preserves the invariant verbatim. -/
theorem inv_push {c : LRUCache} {l : List Nat} (x : Node) (hInv : CacheInv c l) :
    CacheInv { c with nodes := c.nodes.push x } l := by
  have hco : ∀ L, chainOf { c with nodes := c.nodes.push x } L = chainOf c L :=
    fun _ => rfl
  have hnd_mem : ∀ i ∈ chainOf c l,
      nd { c with nodes := c.nodes.push x } i = nd c i :=
    fun i hi => nd_push_lt _ (hInv.bounds i hi)
  refine ⟨?_, ?_, ?_, ?_, ?_, ?_, ?_, ?_, ?_⟩
  · rw [hco]
    exact hInv.nodup
  · intro i hi
    rw [hco] at hi
    simp only [Array.size_push]
    exact Nat.lt_succ_of_lt (hInv.bounds i hi)
  · rw [hco]
    refine chain_transfer ?_ hInv.links
    intro a ha b hb hr
    rw [ndR, hnd_mem a ha, hnd_mem b hb]
    exact hr
  · exact hInv.kNodup
  · intro e he
    obtain ⟨hm, hk⟩ := hInv.d2l e he
    refine ⟨hm, ?_⟩
    rw [nd_push_lt _ (hInv.bounds e.2 (mem_chainOf_of_mem hm))]
    exact hk
  · intro m hm
    rw [nd_push_lt _ (hInv.bounds m (mem_chainOf_of_mem hm))]
    exact hInv.l2d m hm
  · exact hInv.sizeEq
  · exact hInv.sizeLe
  · exact hInv.capPos

/-! ### The public operations at the invariant level -/

/-- `get` on an absent key returns `-1` and the state, unchanged (the early
return happens before any list surgery). -/
theorem get_none {c : LRUCache} {k : Int} (hk : alookup c.cache k = none) :
    c.get k = some (c, -1) := by
  unfold LRUCache.get
  rw [hk]

/-- `get` on a present key: returns the stored value, moves the node to the
head, and changes nothing else. -/
theorem get_hit {c : LRUCache} {l : List Nat} {k : Int} {n : Nat}
    (hInv : CacheInv c l) (hk : alookup c.cache k = some n) :
    ∃ c', c.get k = some (c', (nd c n).value) ∧ CacheInv c' (n :: l.erase n) ∧
      c'.cache = c.cache ∧ c'.capacity = c.capacity ∧ c'.head = c.head ∧
      c'.tail = c.tail ∧ c'.nodes.size = c.nodes.size ∧ sameKV c c' ∧
      n ∈ l ∧ (nd c n).key = k := by
  have hmem := hInv.d2l (k, n) (alookup_mem hk)
  obtain ⟨hnl, hkey⟩ := hmem
  obtain ⟨c', hrun, hInv', hcache, hcap, hhead, htail, hsize, hkv⟩ := move_rebuild hInv hnl
  have hbn : n < c'.nodes.size := by
    rw [hsize]
    exact hInv.bounds n (mem_chainOf_of_mem hnl)
  have hv : (nd c' n).value = (nd c n).value := (hkv n).2
  refine ⟨c', ?_, hInv', hcache, hcap, hhead, htail, hsize, hkv, hnl, hkey⟩
  unfold LRUCache.get
  simp only [hk, hrun, getElemQ_eq_nd hbn, hv]

/-- `put` on a present key: overwrites the value in place, moves the node to
the head, and leaves the dict untouched. -/
theorem put_update {c : LRUCache} {l : List Nat} {k v : Int} {n : Nat}
    (hInv : CacheInv c l) (hk : alookup c.cache k = some n) :
    ∃ c', c.put k v = some c' ∧ CacheInv c' (n :: l.erase n) ∧
      c'.cache = c.cache ∧ c'.capacity = c.capacity ∧ c'.head = c.head ∧
      c'.tail = c.tail ∧ c'.nodes.size = c.nodes.size ∧
      (nd c' n).key = k ∧ (nd c' n).value = v ∧
      (∀ i, i ≠ n → (nd c' i).key = (nd c i).key ∧ (nd c' i).value = (nd c i).value) ∧
      n ∈ l := by
  have hmem := hInv.d2l (k, n) (alookup_mem hk)
  obtain ⟨hnl, hkey⟩ := hmem
  have hbn : n < c.nodes.size := hInv.bounds n (mem_chainOf_of_mem hnl)
  have hInv1 : CacheInv (setNode c n { nd c n with value := v }) l := inv_setValue v hInv hbn
  obtain ⟨c', hrun, hInv', hcache, hcap, hhead, htail, hsize, hkv⟩ := move_rebuild hInv1 hnl
  have hbn' : n < (setNode c n { nd c n with value := v }).nodes.size := by
    rw [setNode_size]
    exact hbn
  refine ⟨c', ?_, hInv', hcache, hcap, hhead, htail, by rw [hsize, setNode_size], ?_, ?_, ?_, hnl⟩
  · unfold LRUCache.put
    simp only [hk, getElemQ_eq_nd hbn, hrun]
  · rw [(hkv n).1, nd_setNode_self _ hbn]
    exact hkey
  · rw [(hkv n).2, nd_setNode_self _ hbn]
  · intro i hi
    constructor
    · rw [(hkv i).1, nd_setNode_ne _ hi]
    · rw [(hkv i).2, nd_setNode_ne _ hi]

theorem mem_chainOf_cons {c : LRUCache} {l : List Nat} {n i : Nat} :
    i ∈ chainOf c (n :: l) ↔ i = n ∨ i ∈ chainOf c l := by
  simp only [chainOf, List.mem_cons, List.cons_append, List.mem_append]
  tauto

/-- `put` of an absent key with room left: no eviction, the new node is
allocated at the end of the arena and linked at the head. -/
theorem put_new_roomy {c : LRUCache} {l : List Nat} {k v : Int}
    (hInv : CacheInv c l) (hk : alookup c.cache k = none)
    (hlen : (c.cache.length : Int) < c.capacity) :
    ∃ c', c.put k v = some c' ∧ CacheInv c' (c.nodes.size :: l) ∧
      c'.cache = c.cache ++ [(k, c.nodes.size)] ∧ c'.capacity = c.capacity ∧
      c'.head = c.head ∧ c'.tail = c.tail ∧
      (nd c' c.nodes.size).key = k ∧ (nd c' c.nodes.size).value = v ∧
      (∀ i, i < c.nodes.size →
        (nd c' i).key = (nd c i).key ∧ (nd c' i).value = (nd c i).value) := by
  have hInvP : CacheInv { c with nodes := c.nodes.push ⟨k, v, none, none⟩ } l :=
    inv_push _ hInv
  have hnm : c.nodes.size ∉ chainOf { c with nodes := c.nodes.push ⟨k, v, none, none⟩ } l :=
    fun hmem => Nat.lt_irrefl _ (hInv.bounds _ hmem)
  obtain ⟨c4, hrun_add, hsh4, hkv4, hch4⟩ :=
    add_spec { c with nodes := c.nodes.push ⟨k, v, none, none⟩ } l c.nodes.size
      hInvP.nodup hInvP.bounds hInvP.links
      (by simp [Array.size_push]) hnm
  have hc4cache : c4.cache = c.cache := hsh4.2.1
  have hc4cap : c4.capacity = c.capacity := hsh4.1
  have hc4head : c4.head = c.head := hsh4.2.2.1
  have hc4tail : c4.tail = c.tail := hsh4.2.2.2.1
  have hc4size : c4.nodes.size = c.nodes.size + 1 := by
    rw [hsh4.2.2.2.2]
    simp [Array.size_push]
  have hkvOld : ∀ i, i < c.nodes.size →
      (nd c4 i).key = (nd c i).key ∧ (nd c4 i).value = (nd c i).value := by
    intro i hi
    constructor
    · exact (hkv4 i).1.trans (congrArg Node.key (nd_push_lt _ hi))
    · exact (hkv4 i).2.trans (congrArg Node.value (nd_push_lt _ hi))
  have hnewkey : (nd c4 c.nodes.size).key = k :=
    (hkv4 c.nodes.size).1.trans (congrArg Node.key (nd_push_eq _))
  have hnewval : (nd c4 c.nodes.size).value = v :=
    (hkv4 c.nodes.size).2.trans (congrArg Node.value (nd_push_eq _))
  have hknot : k ∉ c.cache.map Prod.fst := by
    intro hmem
    obtain ⟨e, he, hek⟩ := List.mem_map.mp hmem
    exact (alookup_eq_none.mp hk e he) hek
  refine ⟨{ c4 with cache := c.cache ++ [(k, c.nodes.size)] }, ?_, ?_, rfl,
    hc4cap, hc4head, hc4tail, hnewkey, hnewval, hkvOld⟩
  · unfold LRUCache.put
    simp only [hk]
    rw [if_neg (not_le.mpr hlen)]
    simp only [hrun_add, hc4cache, dictSet_absent c.nodes.size hk]
  · -- the invariant for the extended state
    have hco : ∀ L, chainOf { c4 with cache := c.cache ++ [(k, c.nodes.size)] } L =
        chainOf c L := by
      intro L
      rw [chainOf, chainOf]
      have h1 : ({ c4 with cache := c.cache ++ [(k, c.nodes.size)] } : LRUCache).head =
        c.head := hc4head
      have h2 : ({ c4 with cache := c.cache ++ [(k, c.nodes.size)] } : LRUCache).tail =
        c.tail := hc4tail
      rw [h1, h2]
    refine ⟨?_, ?_, ?_, ?_, ?_, ?_, ?_, ?_, ?_⟩
    · rw [hco]
      exact chain_nodup_cons hInv.nodup hnm
    · intro i hi
      rw [hco, mem_chainOf_cons] at hi
      have hsz : ({ c4 with cache := c.cache ++ [(k, c.nodes.size)] } : LRUCache).nodes.size =
          c.nodes.size + 1 := hc4size
      rw [hsz]
      rcases hi with rfl | hi
      · exact Nat.lt_succ_self _
      · exact Nat.lt_succ_of_lt (hInv.bounds i hi)
    · rw [hco]
      exact hch4
    · simp only [List.map_append]
      refine List.Nodup.append hInv.kNodup (by simp) ?_
      intro a ha hb
      simp only [List.map_cons, List.map_nil, List.mem_singleton] at hb
      exact hknot (hb ▸ ha)
    · intro e he
      rcases List.mem_append.mp he with he | he
      · obtain ⟨hm, hkey⟩ := hInv.d2l e he
        have hbe : e.2 < c.nodes.size := hInv.bounds e.2 (mem_chainOf_of_mem hm)
        exact ⟨List.mem_cons_of_mem _ hm, ((hkvOld e.2 hbe).1).trans hkey⟩
      · simp only [List.mem_singleton] at he
        subst he
        exact ⟨List.mem_cons_self _ _, hnewkey⟩
    · intro m hm
      show alookup (c.cache ++ [(k, c.nodes.size)]) ((nd c4 m).key) = some m
      rcases List.mem_cons.mp hm with rfl | hm
      · rw [hnewkey, alookup_append_none hk]
        simp [alookup]
      · have hbm : m < c.nodes.size := hInv.bounds m (mem_chainOf_of_mem hm)
        rw [(hkvOld m hbm).1]
        exact alookup_append_some (hInv.l2d m hm)
    · show (c.cache ++ [(k, c.nodes.size)]).length = (c.nodes.size :: l).length
      simp [hInv.sizeEq]
    · have h1 := hInv.sizeEq
      have h2 := hInv.sizeLe
      have h3 : ({ c4 with cache := c.cache ++ [(k, c.nodes.size)] } : LRUCache).capacity =
        c.capacity := hc4cap
      rw [h3]
      simp only [List.length_cons]
      omega
    · have h3 : ({ c4 with cache := c.cache ++ [(k, c.nodes.size)] } : LRUCache).capacity =
        c.capacity := hc4cap
      rw [h3]
      exact hInv.capPos

theorem chainOf_sublist {c : LRUCache} {l1 l2 : List Nat} (h : List.Sublist l1 l2) :
    List.Sublist (chainOf c l1) (chainOf c l2) := by
  rw [chainOf, chainOf]
  exact (h.append (List.Sublist.refl _)).cons₂ _

/-- `put` of an absent key at (or beyond) capacity: evicts exactly the node
before the tail sentinel, deletes its key, then links the fresh node at the
head. -/
theorem put_new_full {c : LRUCache} {l : List Nat} {k v : Int}
    (hInv : CacheInv c l) (hk : alookup c.cache k = none)
    (hlen : (c.cache.length : Int) ≥ c.capacity) :
    ∃ c' m, l.getLast? = some m ∧ c.put k v = some c' ∧
      CacheInv c' (c.nodes.size :: l.dropLast) ∧
      c'.cache = eraseKey c.cache ((nd c m).key) ++ [(k, c.nodes.size)] ∧
      c'.capacity = c.capacity ∧ c'.head = c.head ∧ c'.tail = c.tail ∧
      (nd c' c.nodes.size).key = k ∧ (nd c' c.nodes.size).value = v ∧
      (∀ i, i < c.nodes.size →
        (nd c' i).key = (nd c i).key ∧ (nd c' i).value = (nd c i).value) ∧
      m ∈ l := by
  have hlpos : 0 < l.length := by
    have h1 := hInv.sizeEq
    have h2 := hInv.capPos
    by_contra h0
    have : l.length = 0 := by omega
    rw [h1, this] at hlen
    simp at hlen
    omega
  have hlne : l ≠ [] := List.length_pos.mp hlpos
  have hgl : l.getLast? = some (l.getLast hlne) := List.getLast?_eq_getLast_of_ne_nil hlne
  have hsplit : l.dropLast ++ [l.getLast hlne] = l := List.dropLast_append_getLast hlne
  have hml : l.getLast hlne ∈ l := List.getLast_mem hlne
  have hInvP : CacheInv { c with nodes := c.nodes.push ⟨k, v, none, none⟩ } l :=
    inv_push _ hInv
  obtain ⟨c2, hrun_pop, hsh2, hkv2, hch2⟩ :=
    pop_spec { c with nodes := c.nodes.push ⟨k, v, none, none⟩ } l.dropLast (l.getLast hlne)
      (by rw [hsplit]; exact hInvP.nodup)
      (by rw [hsplit]; exact hInvP.bounds)
      (by rw [hsplit]; exact hInvP.links)
  have hc2cache : c2.cache = c.cache := hsh2.2.1
  have hc2head : c2.head = c.head := hsh2.2.2.1
  have hc2tail : c2.tail = c.tail := hsh2.2.2.2.1
  have hc2size : c2.nodes.size = c.nodes.size + 1 := by
    rw [hsh2.2.2.2.2]
    simp [Array.size_push]
  have hbm : l.getLast hlne < c.nodes.size := hInv.bounds _ (mem_chainOf_of_mem hml)
  have hbm2 : l.getLast hlne < c2.nodes.size := by
    rw [hc2size]
    exact Nat.lt_succ_of_lt hbm
  have hkeym : (nd c2 (l.getLast hlne)).key = (nd c (l.getLast hlne)).key :=
    (hkv2 _).1.trans (congrArg Node.key (nd_push_lt _ hbm))
  have htk : alookup c.cache ((nd c (l.getLast hlne)).key) = some (l.getLast hlne) :=
    hInv.l2d _ hml
  have htk2 : alookup c2.cache ((nd c2 (l.getLast hlne)).key) = some (l.getLast hlne) := by
    rw [hc2cache, hkeym]
    exact htk
  have hkeyne : k ≠ (nd c (l.getLast hlne)).key := by
    intro h
    rw [← h, hk] at htk
    exact Option.noConfusion htk
  -- the chain facts transfer through the dict deletion
  have hchEq : ∀ L,
      chainOf { c2 with cache := eraseKey c2.cache ((nd c2 (l.getLast hlne)).key) } L =
        chainOf c L := by
    intro L
    rw [chainOf, chainOf, hc2head, hc2tail]
  have hdropSub := chainOf_sublist (c := c) (List.dropLast_sublist l)
  have hnmDrop : c.nodes.size ∉ chainOf c l.dropLast :=
    fun h => Nat.lt_irrefl _ (hInv.bounds _ (hdropSub.subset h))
  obtain ⟨c4, hrun_add, hsh4, hkv4, hch4⟩ :=
    add_spec { c2 with cache := eraseKey c2.cache ((nd c2 (l.getLast hlne)).key) }
      l.dropLast c.nodes.size
      (by rw [hchEq]; exact hInv.nodup.sublist hdropSub)
      (by intro i hi
          rw [hchEq] at hi
          show i < c2.nodes.size
          rw [hc2size]
          exact Nat.lt_succ_of_lt (hInv.bounds i (hdropSub.subset hi)))
      (by rw [hchEq]; exact hch2)
      (by show c.nodes.size < c2.nodes.size
          rw [hc2size]
          exact Nat.lt_succ_self _)
      (by rw [hchEq]; exact hnmDrop)
  have hc4cache : c4.cache = eraseKey c.cache ((nd c (l.getLast hlne)).key) :=
    hsh4.2.1.trans (by rw [hc2cache, hkeym])
  have hc4head : c4.head = c.head := hsh4.2.2.1.trans hc2head
  have hc4tail : c4.tail = c.tail := hsh4.2.2.2.1.trans hc2tail
  have hc4cap : c4.capacity = c.capacity :=
    hsh4.1.trans (show c2.capacity = c.capacity from hsh2.1)
  have hc4size : c4.nodes.size = c.nodes.size + 1 := hsh4.2.2.2.2.trans hc2size
  have hkvOld : ∀ i, i < c.nodes.size →
      (nd c4 i).key = (nd c i).key ∧ (nd c4 i).value = (nd c i).value := by
    intro i hi
    constructor
    · exact (hkv4 i).1.trans ((hkv2 i).1.trans (congrArg Node.key (nd_push_lt _ hi)))
    · exact (hkv4 i).2.trans ((hkv2 i).2.trans (congrArg Node.value (nd_push_lt _ hi)))
  have hnewkey : (nd c4 c.nodes.size).key = k :=
    (hkv4 _).1.trans ((hkv2 _).1.trans (congrArg Node.key (nd_push_eq _)))
  have hnewval : (nd c4 c.nodes.size).value = v :=
    (hkv4 _).2.trans ((hkv2 _).2.trans (congrArg Node.value (nd_push_eq _)))
  have herlook : alookup (eraseKey c.cache ((nd c (l.getLast hlne)).key)) k = none := by
    rw [alookup_eraseKey_ne hkeyne]
    exact hk
  have hmNotDrop : l.getLast hlne ∉ l.dropLast := by
    have hnd := inv_l_nodup hInv
    rw [← hsplit, List.nodup_append] at hnd
    intro hmem
    exact hnd.2.2 hmem (List.mem_cons_self _ _)
  refine ⟨{ c4 with
      cache := eraseKey c.cache ((nd c (l.getLast hlne)).key) ++ [(k, c.nodes.size)] },
    l.getLast hlne, hgl, ?_, ?_, rfl, hc4cap, hc4head, hc4tail, hnewkey, hnewval,
    hkvOld, hml⟩
  · -- running the code
    unfold LRUCache.put
    simp only [hk]
    rw [if_pos hlen]
    simp only [hrun_pop, getElemQ_eq_nd hbm2, htk2, hrun_add, hc4cache,
      dictSet_absent c.nodes.size herlook]
  · -- the invariant for the new state
    have hco : ∀ L, chainOf { c4 with
        cache := eraseKey c.cache ((nd c (l.getLast hlne)).key) ++ [(k, c.nodes.size)] } L =
        chainOf c L := by
      intro L
      rw [chainOf, chainOf, hc4head, hc4tail]
    refine ⟨?_, ?_, ?_, ?_, ?_, ?_, ?_, ?_, ?_⟩
    · rw [hco]
      exact chain_nodup_cons (hInv.nodup.sublist hdropSub) hnmDrop
    · intro i hi
      rw [hco, mem_chainOf_cons] at hi
      show i < c4.nodes.size
      rw [hc4size]
      rcases hi with rfl | hi
      · exact Nat.lt_succ_self _
      · exact Nat.lt_succ_of_lt (hInv.bounds i (hdropSub.subset hi))
    · rw [hco]
      exact (hchEq (c.nodes.size :: l.dropLast)) ▸ hch4
    · show ((eraseKey c.cache ((nd c (l.getLast hlne)).key) ++
        [(k, c.nodes.size)]).map Prod.fst).Nodup
      rw [List.map_append]
      refine List.Nodup.append (keys_eraseKey_nodup hInv.kNodup) (by simp) ?_
      intro a ha hb
      simp only [List.map_cons, List.map_nil, List.mem_singleton] at hb
      subst hb
      obtain ⟨e, he, hek⟩ := List.mem_map.mp ha
      exact (alookup_eq_none.mp herlook e he) hek
    · intro e he
      rcases List.mem_append.mp he with he | he
      · obtain ⟨heC, hekey_ne⟩ := (mem_eraseKey hInv.kNodup).mp he
        obtain ⟨hm, hkey⟩ := hInv.d2l e heC
        have hbe : e.2 < c.nodes.size := hInv.bounds e.2 (mem_chainOf_of_mem hm)
        have hmem2 : e.2 ∈ l.dropLast ++ [l.getLast hlne] := by
          rw [hsplit]
          exact hm
        rcases List.mem_append.mp hmem2 with h2 | h2
        · exact ⟨List.mem_cons_of_mem _ h2, (hkvOld e.2 hbe).1.trans hkey⟩
        · exfalso
          simp only [List.mem_singleton] at h2
          rw [h2] at hkey
          exact hekey_ne hkey.symm
      · simp only [List.mem_singleton] at he
        subst he
        exact ⟨List.mem_cons_self _ _, hnewkey⟩
    · intro n' hn'
      show alookup (eraseKey c.cache ((nd c (l.getLast hlne)).key) ++
        [(k, c.nodes.size)]) ((nd c4 n').key) = some n'
      rcases List.mem_cons.mp hn' with rfl | hn'
      · rw [hnewkey, alookup_append_none herlook]
        simp [alookup]
      · have hn'l : n' ∈ l := (List.dropLast_sublist l).subset hn'
        have hbn' : n' < c.nodes.size := hInv.bounds n' (mem_chainOf_of_mem hn'l)
        have hknn : (nd c n').key ≠ (nd c (l.getLast hlne)).key := by
          intro hkeq
          have := inv_keyInj hInv hn'l hml hkeq
          rw [this] at hn'
          exact hmNotDrop hn'
        rw [(hkvOld n' hbn').1]
        refine alookup_append_some ?_
        rw [alookup_eraseKey_ne hknn]
        exact hInv.l2d n' hn'l
    · show (eraseKey c.cache ((nd c (l.getLast hlne)).key) ++
        [(k, c.nodes.size)]).length = (c.nodes.size :: l.dropLast).length
      have hle := length_eraseKey htk
      have hse := hInv.sizeEq
      have hdl : l.dropLast.length = l.length - 1 := by
        simp [List.length_dropLast]
      simp only [List.length_append, List.length_cons, List.length_nil]
      omega
    · show ((c.nodes.size :: l.dropLast).length : Int) ≤ c4.capacity
      rw [hc4cap]
      have hdl : l.dropLast.length = l.length - 1 := by
        simp [List.length_dropLast]
      have hsl := hInv.sizeLe
      simp only [List.length_cons]
      omega
    · show (0 : Int) < c4.capacity
      rw [hc4cap]
      exact hInv.capPos

/-! ### The observable chain -/

theorem chaseFrom_spec {c : LRUCache} : ∀ (L : List Nat) (fuel : Nat),
    L.length < fuel → c.tail ∉ L → List.Chain' (ndR c) (L ++ [c.tail]) →
    chaseFrom c fuel ((L ++ [c.tail]).headI) = L := by
  intro L
  induction L with
  | nil =>
    intro fuel hf _ _
    cases fuel with
    | zero => exact absurd hf (by simp)
    | succ fuel =>
      simp only [List.nil_append, List.headI]
      rw [chaseFrom, if_pos rfl]
  | cons n L' ih =>
    intro fuel hf ht hch
    cases fuel with
    | zero => exact absurd hf (by simp)
    | succ fuel =>
      obtain ⟨f', rest, hfr⟩ : ∃ f' rest, L' ++ [c.tail] = f' :: rest := by
        cases L' with
        | nil => exact ⟨c.tail, [], rfl⟩
        | cons x xs => exact ⟨x, xs ++ [c.tail], rfl⟩
      have hch' : List.Chain' (ndR c) (n :: f' :: rest) := by
        rw [← hfr]
        exact hch
      have hnext : (nd c n).next = some f' := (List.chain'_cons.mp hch').1.1
      have hnt : n ≠ c.tail := by
        intro h
        exact ht (h ▸ List.mem_cons_self _ _)
      have hfhead : (L' ++ [c.tail]).headI = f' := by rw [hfr]; rfl
      simp only [List.cons_append, List.headI]
      rw [chaseFrom, if_neg hnt, hnext]
      have hrec := ih fuel (by simp at hf ⊢; omega)
        (fun h => ht (List.mem_cons_of_mem _ h)) (by rw [hfr]; exact hch'.tail)
      rw [hfhead] at hrec
      show n :: chaseFrom c fuel f' = n :: L'
      rw [hrec]

/-- Under the invariant, chasing the pointers from the head sentinel
recovers exactly the recency list. -/
theorem chainData_eq {c : LRUCache} {l : List Nat} (hInv : CacheInv c l) :
    chainData c = l := by
  have hlen : (chainOf c l).length ≤ c.nodes.size := by
    have h1 : (chainOf c l).toFinset.card = (chainOf c l).length :=
      List.toFinset_card_of_nodup hInv.nodup
    have h2 : (chainOf c l).toFinset ⊆ Finset.range c.nodes.size := by
      intro x hx
      rw [Finset.mem_range]
      exact hInv.bounds x (List.mem_toFinset.mp hx)
    have h3 := Finset.card_le_card h2
    rw [Finset.card_range, h1] at h3
    exact h3
  have hlen2 : l.length < c.nodes.size := by
    have : (chainOf c l).length = l.length + 2 := by
      rw [chainOf]
      simp
    omega
  have htl : c.tail ∉ l := by
    have h := hInv.nodup
    rw [chainOf, List.nodup_cons] at h
    obtain ⟨_, h2⟩ := h
    rw [List.nodup_append] at h2
    intro hmem
    exact h2.2.2 hmem (List.mem_cons_self _ _)
  have hchl : List.Chain' (ndR c) (l ++ [c.tail]) := hInv.links.tail
  obtain ⟨f, rest, hfr⟩ : ∃ f rest, l ++ [c.tail] = f :: rest := by
    cases l with
    | nil => exact ⟨c.tail, [], rfl⟩
    | cons x xs => exact ⟨x, xs ++ [c.tail], rfl⟩
  have hch' : List.Chain' (ndR c) (c.head :: f :: rest) := by
    rw [← hfr]
    exact hInv.links
  have hheadnext : (nd c c.head).next = some f := (List.chain'_cons.mp hch').1.1
  have hfhead : (l ++ [c.tail]).headI = f := by rw [hfr]; rfl
  rw [chainData, hheadnext]
  have := chaseFrom_spec l c.nodes.size hlen2 htl hchl
  rw [hfhead] at this
  exact this

/-! ### Construction -/

/-- A successfully constructed cache satisfies the invariant with the empty
recency list. -/
theorem construct_inv {cap : Int} {c0 : LRUCache}
    (h : LRUCache.construct cap = Except.ok c0) :
    CacheInv c0 [] ∧ c0.capacity = cap ∧ c0.cache = [] := by
  unfold LRUCache.construct at h
  by_cases hcap : cap ≤ 0
  · rw [if_pos hcap] at h
    exact absurd h (by simp)
  · rw [if_neg hcap] at h
    have hc0 := (Except.ok.inj h).symm
    subst hc0
    refine ⟨⟨?_, ?_, ?_, ?_, ?_, ?_, ?_, ?_, ?_⟩, rfl, rfl⟩
    · show ([0, 1] : List Nat).Nodup
      decide
    · show ∀ i ∈ ([0, 1] : List Nat), i < 2
      decide
    · exact List.chain'_cons.mpr ⟨⟨rfl, rfl⟩, List.chain'_singleton _⟩
    · exact List.nodup_nil
    · intro e he
      exact absurd he (List.not_mem_nil e)
    · intro m hm
      exact absurd hm (List.not_mem_nil m)
    · rfl
    · exact le_of_lt (not_le.mp hcap)
    · exact not_le.mp hcap

/-! ### Refinement to the functional model -/

theorem absState_congr_mem {c c' : LRUCache} {L : List Nat}
    (h : ∀ m ∈ L, (nd c' m).key = (nd c m).key ∧ (nd c' m).value = (nd c m).value) :
    absState c' L = absState c L := by
  induction L with
  | nil => rfl
  | cons a L ih =>
    have ha := h a (List.mem_cons_self _ _)
    simp only [absState, List.map_cons] at ih ⊢
    rw [ha.1, ha.2, ih (fun m hm => h m (List.mem_cons_of_mem _ hm))]

theorem abs_lookup_none {c : LRUCache} {l : List Nat} {k : Int}
    (hInv : CacheInv c l) (hk : alookup c.cache k = none) :
    alookup (absState c l) k = none := by
  rw [alookup_eq_none]
  intro e he hek
  obtain ⟨n, hn, rfl⟩ := List.mem_map.mp he
  have h2 := hInv.l2d n hn
  simp only at hek
  rw [hek, hk] at h2
  exact Option.noConfusion h2

theorem alookup_abs_split {c : LRUCache} {k : Int} {n : Nat} (l₂ : List Nat) :
    ∀ l₁ : List Nat, (∀ m ∈ l₁, (nd c m).key ≠ k) → (nd c n).key = k →
      alookup (absState c (l₁ ++ n :: l₂)) k = some ((nd c n).value) ∧
      eraseKey (absState c (l₁ ++ n :: l₂)) k = absState c (l₁ ++ l₂) := by
  intro l₁
  induction l₁ with
  | nil =>
    intro _ hke
    constructor
    · simp only [absState, List.nil_append, List.map_cons, alookup, if_pos hke]
    · simp only [absState, List.nil_append, List.map_cons, eraseKey, if_pos hke]
  | cons m ms ih =>
    intro hne hke
    have hm : (nd c m).key ≠ k := hne m (List.mem_cons_self _ _)
    obtain ⟨ih1, ih2⟩ := ih (fun x hx => hne x (List.mem_cons_of_mem _ hx)) hke
    constructor
    · simp only [absState, List.cons_append, List.map_cons, alookup, if_neg hm]
      exact ih1
    · simp only [absState, List.cons_append, List.map_cons, eraseKey, if_neg hm]
      exact congrArg (fun t => ((nd c m).key, (nd c m).value) :: t) ih2

theorem abs_lookup_hit {c : LRUCache} {l : List Nat} {k : Int} {n : Nat}
    (hInv : CacheInv c l) (hk : alookup c.cache k = some n) :
    alookup (absState c l) k = some ((nd c n).value) ∧
    eraseKey (absState c l) k = absState c (l.erase n) := by
  obtain ⟨hnl, hkey⟩ := hInv.d2l _ (alookup_mem hk)
  obtain ⟨l₁, l₂, rfl⟩ := List.append_of_mem hnl
  have hnd := inv_l_nodup hInv
  have hn1 : n ∉ l₁ := by
    rw [List.nodup_append] at hnd
    exact fun hm => hnd.2.2 hm (List.mem_cons_self _ _)
  have herase : (l₁ ++ n :: l₂).erase n = l₁ ++ l₂ := by
    rw [List.erase_append_right _ hn1, List.erase_cons_head]
  have hne : ∀ m ∈ l₁, (nd c m).key ≠ k := by
    intro m hm hkm
    have heq : m = n := inv_keyInj hInv (List.mem_append_left _ hm) hnl
      (hkm.trans hkey.symm)
    exact hn1 (heq ▸ hm)
  rw [herase]
  exact alookup_abs_split l₂ l₁ hne hkey

/-- One operation on the cache refines one step of the functional model. -/
theorem step_refine {c : LRUCache} {l : List Nat} (hInv : CacheInv c l) :
    ∀ op : Op, ∃ c' l', stepOp c op = some c' ∧ CacheInv c' l' ∧
      absState c' l' = SpecStep c.capacity (absState c l) op ∧
      c'.capacity = c.capacity := by
  intro op
  cases op with
  | get k =>
    cases hak : alookup c.cache k with
    | none =>
      refine ⟨c, l, ?_, hInv, ?_, rfl⟩
      · unfold stepOp
        simp only [get_none hak]
      · simp only [SpecStep, abs_lookup_none hInv hak]
    | some n =>
      obtain ⟨c', hrun, hInv', hcache, hcap, _, _, _, hkv, hnl, hkey⟩ := get_hit hInv hak
      obtain ⟨habs1, habs2⟩ := abs_lookup_hit hInv hak
      refine ⟨c', n :: l.erase n, ?_, hInv', ?_, hcap⟩
      · unfold stepOp
        simp only [hrun]
      · simp only [SpecStep, habs1]
        rw [habs2]
        show ((nd c' n).key, (nd c' n).value) :: absState c' (l.erase n) =
          (k, (nd c n).value) :: absState c (l.erase n)
        rw [(hkv n).1, (hkv n).2, hkey,
          absState_congr_mem (fun m _ => ⟨(hkv m).1, (hkv m).2⟩)]
  | put k v =>
    cases hak : alookup c.cache k with
    | some n =>
      obtain ⟨c', hrun, hInv', hcache, hcap, _, _, _, hnk, hnv, hkvOld, hnl⟩ :=
        put_update hInv hak
      obtain ⟨habs1, habs2⟩ := abs_lookup_hit hInv hak
      refine ⟨c', n :: l.erase n, hrun, hInv', ?_, hcap⟩
      simp only [SpecStep, habs1]
      rw [habs2]
      show ((nd c' n).key, (nd c' n).value) :: absState c' (l.erase n) =
        (k, v) :: absState c (l.erase n)
      rw [hnk, hnv, absState_congr_mem (fun m hm =>
        hkvOld m ((inv_l_nodup hInv).mem_erase_iff.mp hm).1)]
    | none =>
      by_cases hlen : (c.cache.length : Int) < c.capacity
      · obtain ⟨c', hrun, hInv', hcache, hcap, _, _, hnk, hnv, hkvOld⟩ :=
          put_new_roomy hInv hak hlen
        refine ⟨c', c.nodes.size :: l, hrun, hInv', ?_, hcap⟩
        simp only [SpecStep, abs_lookup_none hInv hak]
        rw [if_neg (by rw [absState, List.length_map, ← hInv.sizeEq]; exact not_le.mpr hlen)]
        show ((nd c' c.nodes.size).key, (nd c' c.nodes.size).value) :: absState c' l =
          (k, v) :: absState c l
        rw [hnk, hnv, absState_congr_mem (fun m hm =>
          hkvOld m (hInv.bounds m (mem_chainOf_of_mem hm)))]
      · have hlen' : (c.cache.length : Int) ≥ c.capacity := not_lt.mp hlen
        obtain ⟨c', m, hgl, hrun, hInv', hcache, hcap, _, _, hnk, hnv, hkvOld, hml⟩ :=
          put_new_full hInv hak hlen'
        have hlne : l ≠ [] := by
          intro h
          rw [h] at hgl
          exact Option.noConfusion hgl
        have hm_eq : m = l.getLast hlne :=
          Option.some.inj (hgl.symm.trans (List.getLast?_eq_getLast_of_ne_nil hlne))
        have hsplit : l.dropLast ++ [m] = l := by
          rw [hm_eq]
          exact List.dropLast_append_getLast hlne
        refine ⟨c', c.nodes.size :: l.dropLast, hrun, hInv', ?_, hcap⟩
        simp only [SpecStep, abs_lookup_none hInv hak]
        rw [if_pos (by rw [absState, List.length_map, ← hInv.sizeEq]; exact hlen')]
        have hdrop : (absState c l).dropLast = absState c l.dropLast := by
          conv_lhs => rw [← hsplit]
          rw [show absState c (l.dropLast ++ [m]) =
            absState c l.dropLast ++ [((nd c m).key, (nd c m).value)] from by
              simp [absState]]
          exact List.dropLast_concat
        rw [hdrop]
        show ((nd c' c.nodes.size).key, (nd c' c.nodes.size).value) ::
            absState c' l.dropLast =
          (k, v) :: absState c l.dropLast
        rw [hnk, hnv, absState_congr_mem (fun x hx =>
          hkvOld x (hInv.bounds x (mem_chainOf_of_mem ((List.dropLast_sublist l).subset hx))))]

/-- Running a sequence of operations refines the functional model. -/
theorem runOps_refine {c : LRUCache} {l : List Nat} (hInv : CacheInv c l) :
    ∀ ops : List Op, ∃ c' l', runOps c ops = some c' ∧ CacheInv c' l' ∧
      absState c' l' = specRun c.capacity (absState c l) ops ∧
      c'.capacity = c.capacity := by
  intro ops
  induction ops generalizing c l with
  | nil => exact ⟨c, l, rfl, hInv, rfl, rfl⟩
  | cons op ops ih =>
    obtain ⟨c1, l1, hstep, hInv1, habs1, hcap1⟩ := step_refine hInv op
    obtain ⟨c2, l2, hrun2, hInv2, habs2, hcap2⟩ := ih hInv1
    refine ⟨c2, l2, ?_, hInv2, ?_, hcap2.trans hcap1⟩
    · simp only [runOps, hstep]
      exact hrun2
    · simp only [specRun]
      rw [habs2, hcap1, habs1]

/-- Every reachable state satisfies the invariant for some recency list that
refines the functional model. -/
theorem reach_inv {cap : Int} {c0 c : LRUCache} {ops : List Op}
    (hc0 : LRUCache.construct cap = Except.ok c0) (hrun : runOps c0 ops = some c) :
    ∃ l, CacheInv c l ∧ absState c l = specRun cap [] ops ∧ c.capacity = cap := by
  obtain ⟨hInv0, hcap0, hcache0⟩ := construct_inv hc0
  obtain ⟨c', l', hrun', hInv', habs', hcap'⟩ := runOps_refine hInv0 ops
  rw [hrun] at hrun'
  obtain rfl : c = c' := Option.some.inj hrun'
  refine ⟨l', hInv', ?_, hcap'.trans hcap0⟩
  rw [habs', hcap0]
  rfl

/-! ### Touch times in the functional model -/

theorem specRun_append (cap : Int) (ops : List Op) (op : Op) :
    ∀ s : List (Int × Int),
    specRun cap s (ops ++ [op]) = SpecStep cap (specRun cap s ops) op := by
  induction ops with
  | nil => intro s; rfl
  | cons op' rest ih =>
    intro s
    simp only [List.cons_append, specRun]
    exact ih _

theorem lastTouchAux_append (cap : Int) (op : Op) (k : Int) :
    ∀ (ops : List Op) (s : List (Int × Int)) (i : Nat),
    lastTouchAux cap s i (ops ++ [op]) k =
      if touchesKey (specRun cap s ops) op k then some (i + ops.length)
      else lastTouchAux cap s i ops k := by
  intro ops
  induction ops with
  | nil =>
    intro s i
    simp only [List.nil_append, lastTouchAux, specRun, List.length_nil, Nat.add_zero]
  | cons op' rest ih =>
    intro s i
    simp only [List.cons_append, lastTouchAux, specRun, List.length_cons, List.append_eq]
    rw [ih]
    by_cases ht : touchesKey (specRun cap (SpecStep cap s op') rest) op k = true
    · rw [if_pos ht, if_pos ht]
      have : i + 1 + rest.length = i + (rest.length + 1) := by omega
      rw [this]
    · rw [if_neg ht, if_neg ht]

theorem lastTouchAux_lt (cap : Int) (k : Int) :
    ∀ (ops : List Op) (s : List (Int × Int)) (i t : Nat),
    lastTouchAux cap s i ops k = some t → i ≤ t ∧ t < i + ops.length := by
  intro ops
  induction ops with
  | nil =>
    intro s i t h
    exact absurd h (by simp [lastTouchAux])
  | cons op rest ih =>
    intro s i t h
    rw [lastTouchAux] at h
    cases hrec : lastTouchAux cap (SpecStep cap s op) (i+1) rest k with
    | some u =>
      rw [hrec] at h
      obtain rfl := Option.some.inj h
      have := ih _ _ _ hrec
      simp only [List.length_cons]
      omega
    | none =>
      rw [hrec] at h
      by_cases ht : touchesKey s op k = true
      · rw [if_pos ht] at h
        obtain rfl := Option.some.inj h
        simp only [List.length_cons]
        omega
      · rw [if_neg ht] at h
        exact absurd h (by simp)

/-- Pairs earlier in the model list were touched more recently. -/
def ltR (cap : Int) (ops : List Op) : (Int × Int) → (Int × Int) → Prop :=
  fun e e' => ∀ t t', lastTouch cap ops e.1 = some t → lastTouch cap ops e'.1 = some t' →
    t' < t

/-- The functional model keeps its entries sorted by strictly decreasing
last-touch time, with distinct keys, every present key having been touched. -/
def SpecOrdered (cap : Int) (ops : List Op) : Prop :=
  ((specRun cap [] ops).map Prod.fst).Nodup ∧
  (∀ e ∈ specRun cap [] ops, ∃ t, lastTouch cap ops e.1 = some t ∧ t < ops.length) ∧
  List.Pairwise (ltR cap ops) (specRun cap [] ops)

theorem ordered_step {cap : Int} {ops : List Op} {op : Op} {k w : Int}
    {r : List (Int × Int)}
    (hIH : SpecOrdered cap ops)
    (hs' : specRun cap [] (ops ++ [op]) = (k, w) :: r)
    (hrest : List.Sublist r (specRun cap [] ops))
    (hrk : ∀ e ∈ r, e.1 ≠ k)
    (hrknodup : (r.map Prod.fst).Nodup)
    (htouch : ∀ x, touchesKey (specRun cap [] ops) op x = true ↔ x = k) :
    SpecOrdered cap (ops ++ [op]) := by
  obtain ⟨hnd, hex, hpw⟩ := hIH
  have hlt : ∀ x, lastTouch cap (ops ++ [op]) x =
      if touchesKey (specRun cap [] ops) op x then some ops.length
      else lastTouch cap ops x := by
    intro x
    rw [lastTouch, lastTouchAux_append]
    simp only [Nat.zero_add, lastTouch]
  have hltk : lastTouch cap (ops ++ [op]) k = some ops.length := by
    rw [hlt, if_pos ((htouch k).mpr rfl)]
  have hlt_other : ∀ x, x ≠ k → lastTouch cap (ops ++ [op]) x = lastTouch cap ops x := by
    intro x hx
    rw [hlt, if_neg (fun h => hx ((htouch x).mp h))]
  refine ⟨?_, ?_, ?_⟩
  · rw [hs']
    simp only [List.map_cons, List.nodup_cons]
    refine ⟨?_, hrknodup⟩
    intro hmem
    obtain ⟨e, he, hek⟩ := List.mem_map.mp hmem
    exact hrk e he hek
  · intro e he
    rw [hs'] at he
    rcases List.mem_cons.mp he with rfl | he
    · exact ⟨ops.length, hltk, by simp⟩
    · obtain ⟨t, ht, htl⟩ := hex e (hrest.subset he)
      refine ⟨t, ?_, ?_⟩
      · rw [hlt_other e.1 (hrk e he)]
        exact ht
      · simp only [List.length_append, List.length_cons, List.length_nil]
        omega
  · rw [hs', List.pairwise_cons]
    constructor
    · intro e' he' t t' h1 h2
      rw [hltk] at h1
      obtain rfl := Option.some.inj h1
      rw [hlt_other e'.1 (hrk e' he')] at h2
      obtain ⟨u, hu, hb⟩ := hex e' (hrest.subset he')
      rw [hu] at h2
      obtain rfl := Option.some.inj h2
      exact hb
    · refine (hpw.sublist hrest).imp_of_mem ?_
      intro a b ha hb hr t t' h1 h2
      rw [hlt_other a.1 (hrk a ha)] at h1
      rw [hlt_other b.1 (hrk b hb)] at h2
      exact hr t t' h1 h2

theorem ordered_step_id {cap : Int} {ops : List Op} {op : Op}
    (hIH : SpecOrdered cap ops)
    (hs' : specRun cap [] (ops ++ [op]) = specRun cap [] ops)
    (htouch : ∀ x, ¬ (touchesKey (specRun cap [] ops) op x = true)) :
    SpecOrdered cap (ops ++ [op]) := by
  obtain ⟨hnd, hex, hpw⟩ := hIH
  have hlt : ∀ x, lastTouch cap (ops ++ [op]) x = lastTouch cap ops x := by
    intro x
    rw [lastTouch, lastTouchAux_append, if_neg (htouch x)]
    rfl
  refine ⟨?_, ?_, ?_⟩
  · rw [hs']
    exact hnd
  · intro e he
    rw [hs'] at he
    obtain ⟨t, ht, htl⟩ := hex e he
    refine ⟨t, by rw [hlt]; exact ht, ?_⟩
    simp only [List.length_append, List.length_cons, List.length_nil]
    omega
  · rw [hs']
    refine hpw.imp_of_mem ?_
    intro a b _ _ hr t t' h1 h2
    rw [hlt] at h1 h2
    exact hr t t' h1 h2

/-- The model invariant holds for every run from the empty cache. -/
theorem spec_ordered (cap : Int) : ∀ ops : List Op, SpecOrdered cap ops := by
  intro ops
  induction ops using List.reverseRecOn with
  | nil =>
    refine ⟨by simp [specRun], ?_, by simp [specRun]⟩
    intro e he
    simp [specRun] at he
  | append_singleton ops op ih =>
    have hs := specRun_append cap ops op ([] : List (Int × Int))
    cases op with
    | get k =>
      cases hak : alookup (specRun cap [] ops) k with
      | none =>
        refine ordered_step_id ih ?_ ?_
        · rw [hs]
          simp [SpecStep, hak]
        · intro x
          simp [touchesKey, hak]
      | some w =>
        refine ordered_step (k := k) (w := w)
          (r := eraseKey (specRun cap [] ops) k) ih ?_ ?_ ?_ ?_ ?_
        · rw [hs]
          simp [SpecStep, hak]
        · exact eraseKey_sublist _ _
        · intro e he
          exact ((mem_eraseKey ih.1).mp he).2
        · exact keys_eraseKey_nodup ih.1
        · intro x
          simp [touchesKey, hak, eq_comm]
    | put k v =>
      cases hak : alookup (specRun cap [] ops) k with
      | some w =>
        refine ordered_step (k := k) (w := v)
          (r := eraseKey (specRun cap [] ops) k) ih ?_ ?_ ?_ ?_ ?_
        · rw [hs]
          simp [SpecStep, hak]
        · exact eraseKey_sublist _ _
        · intro e he
          exact ((mem_eraseKey ih.1).mp he).2
        · exact keys_eraseKey_nodup ih.1
        · intro x
          simp [touchesKey, eq_comm]
      | none =>
        by_cases hfull : ((specRun cap [] ops).length : Int) ≥ cap
        · refine ordered_step (k := k) (w := v)
            (r := (specRun cap [] ops).dropLast) ih ?_ ?_ ?_ ?_ ?_
          · rw [hs]
            simp [SpecStep, hak, if_pos hfull]
          · exact List.dropLast_sublist _
          · intro e he
            exact alookup_eq_none.mp hak e ((List.dropLast_sublist _).subset he)
          · exact ih.1.sublist ((List.dropLast_sublist _).map Prod.fst)
          · intro x
            simp [touchesKey, eq_comm]
        · refine ordered_step (k := k) (w := v)
            (r := specRun cap [] ops) ih ?_ ?_ ?_ ?_ ?_
          · rw [hs]
            simp [SpecStep, hak, if_neg hfull]
          · exact List.Sublist.refl _
          · intro e he
            exact alookup_eq_none.mp hak e he
          · exact ih.1
          · intro x
            simp [touchesKey, eq_comm]

/-! ### Claim theorems -/

theorem pairwise_dropLast_getLast {α : Type} {R : α → α → Prop} {s : List α}
    (hpw : List.Pairwise R s) (hne : s ≠ []) :
    ∀ e ∈ s.dropLast, R e (s.getLast hne) := by
  intro e he
  have hsplit := List.dropLast_append_getLast hne
  rw [← hsplit, List.pairwise_append] at hpw
  exact hpw.2.2 e he _ (List.mem_singleton.mpr rfl)

/-- C1: on an overflow-causing `put` of an absent key, the evicted key is
present, is removed, was touched (by a `get` hit or a `put`) least recently
among all present keys — every other present key has a strictly later last
touch and survives — and no key other than the inserted one appears. -/
theorem evict_is_lru {cap : Int} {c0 c : LRUCache} {ops : List Op} {k v : Int}
    (hc0 : LRUCache.construct cap = Except.ok c0)
    (hrun : runOps c0 ops = some c)
    (habs : alookup c.cache k = none)
    (hfull : (c.cache.length : Int) ≥ c.capacity) :
    ∃ c' e te, c.put k v = some c' ∧
      keyPresent c e ∧ ¬ keyPresent c' e ∧
      lastTouch cap ops e = some te ∧
      (∀ k', keyPresent c k' → k' ≠ e →
        keyPresent c' k' ∧ ∀ t', lastTouch cap ops k' = some t' → te < t') ∧
      (∀ k', keyPresent c k' → k' ≠ e → ∃ t', lastTouch cap ops k' = some t') ∧
      (∀ k', keyPresent c' k' → k' = k ∨ keyPresent c k') := by
  obtain ⟨l, hInv, habsR, hcap⟩ := reach_inv hc0 hrun
  obtain ⟨c', m, hgl, hput, hInv', hcache', hcap', hh', ht', hnk, hnv, hkvOld, hml⟩ :=
    put_new_full hInv habs hfull
  have hkeyE : alookup c.cache ((nd c m).key) = some m := hInv.l2d m hml
  have hkne : k ≠ (nd c m).key := by
    intro h
    rw [← h, habs] at hkeyE
    exact Option.noConfusion hkeyE
  have herlookE : alookup (eraseKey c.cache ((nd c m).key)) ((nd c m).key) = none :=
    alookup_eraseKey_self hInv.kNodup
  obtain ⟨hndS, hexS, hpwS⟩ := spec_ordered cap ops
  rw [← habsR] at hndS hexS hpwS
  have hlne : l ≠ [] := by
    intro h
    rw [h] at hgl
    exact Option.noConfusion hgl
  have hmeq : m = l.getLast hlne :=
    Option.some.inj (hgl.symm.trans (List.getLast?_eq_getLast_of_ne_nil hlne))
  have hsplit : l.dropLast ++ [m] = l := by
    rw [hmeq]
    exact List.dropLast_append_getLast hlne
  have hslast : (absState c l).getLast? = some ((nd c m).key, (nd c m).value) := by
    conv_lhs => rw [← hsplit]
    rw [show absState c (l.dropLast ++ [m]) =
      absState c l.dropLast ++ [((nd c m).key, (nd c m).value)] from by simp [absState]]
    exact List.getLast?_concat _
  have hsdecomp : (absState c l).dropLast ++ [((nd c m).key, (nd c m).value)] =
      absState c l := List.dropLast_append_getLast? _ hslast
  have hmemE : ((nd c m).key, (nd c m).value) ∈ absState c l := by
    rw [← hsdecomp]
    exact List.mem_append_right _ (List.mem_cons_self _ _)
  obtain ⟨te, hte, _⟩ := hexS _ hmemE
  have hmemDrop : ∀ k' (n' : Nat), k' ≠ (nd c m).key → alookup c.cache k' = some n' →
      (k', (nd c n').value) ∈ (absState c l).dropLast := by
    intro k' n' hkne' hn'
    obtain ⟨hn'l, hn'key⟩ := hInv.d2l _ (alookup_mem hn')
    have hmem : (k', (nd c n').value) ∈ absState c l := by
      rw [absState]
      refine List.mem_map.mpr ⟨n', hn'l, ?_⟩
      rw [hn'key]
    rw [← hsdecomp] at hmem
    rcases List.mem_append.mp hmem with h | h
    · exact h
    · exfalso
      rw [List.mem_singleton] at h
      exact hkne' (congrArg Prod.fst h)
  refine ⟨c', (nd c m).key, te, hput, ?_, ?_, hte, ?_, ?_, ?_⟩
  · simp [keyPresent, hkeyE]
  · simp only [keyPresent, hcache', alookup_append_none herlookE]
    simp [alookup, hkne]
  · intro k' hk' hkne'
    simp only [keyPresent] at hk'
    obtain ⟨n', hn'⟩ := Option.isSome_iff_exists.mp hk'
    have her : alookup (eraseKey c.cache ((nd c m).key)) k' = some n' := by
      rw [alookup_eraseKey_ne hkne']
      exact hn'
    constructor
    · simp [keyPresent, hcache', alookup_append_some her]
    · intro t' hlt'
      have hmem2 := hmemDrop k' n' hkne' hn'
      have hR := pairwise_dropLast_getLast hpwS
        (by intro h; rw [h] at hmemE; exact absurd hmemE (List.not_mem_nil _))
        _ hmem2
      have hlastE : (absState c l).getLast
          (by intro h; rw [h] at hmemE; exact absurd hmemE (List.not_mem_nil _)) =
          ((nd c m).key, (nd c m).value) := by
        have h2 := List.getLast?_eq_getLast_of_ne_nil
          (l := absState c l)
          (by intro h; rw [h] at hmemE; exact absurd hmemE (List.not_mem_nil _))
        exact Option.some.inj (h2.symm.trans hslast)
      rw [hlastE] at hR
      exact hR t' te hlt' hte
  · intro k' hk' hkne'
    simp only [keyPresent] at hk'
    obtain ⟨n', hn'⟩ := Option.isSome_iff_exists.mp hk'
    obtain ⟨t', ht', _⟩ := hexS _ ((List.dropLast_sublist _).subset (hmemDrop k' n' hkne' hn'))
    exact ⟨t', ht'⟩
  · intro k' hk'
    simp only [keyPresent, hcache'] at hk'
    by_cases hq : k' = k
    · exact Or.inl hq
    · right
      cases her : alookup (eraseKey c.cache ((nd c m).key)) k' with
      | some x =>
        by_cases hke : k' = (nd c m).key
        · rw [hke, herlookE] at her
          exact Option.noConfusion her
        · rw [alookup_eraseKey_ne hke] at her
          simp [keyPresent, her]
      | none =>
        exfalso
        rw [alookup_append_none her] at hk'
        have : alookup [(k, c.nodes.size)] k' = none := by
          simp [alookup, Ne.symm hq]
        rw [this] at hk'
        simp at hk'

/-- C2: in every reachable state, the number of dict entries equals the
number of data nodes linked between the sentinels, and is at most the
capacity. -/
theorem size_invariant {cap : Int} {c0 c : LRUCache} {ops : List Op}
    (hc0 : LRUCache.construct cap = Except.ok c0)
    (hrun : runOps c0 ops = some c) :
    c.cache.length = (chainData c).length ∧ (c.cache.length : Int) ≤ c.capacity := by
  obtain ⟨l, hInv, _, _⟩ := reach_inv hc0 hrun
  rw [chainData_eq hInv]
  refine ⟨hInv.sizeEq, ?_⟩
  rw [hInv.sizeEq]
  exact hInv.sizeLe

/-- C3: in every reachable state, `put k v` immediately followed by `get k`
succeeds and returns `v`. -/
theorem put_get_roundtrip {cap : Int} {c0 c : LRUCache} {ops : List Op}
    (hc0 : LRUCache.construct cap = Except.ok c0)
    (hrun : runOps c0 ops = some c) (k v : Int) :
    ∃ c' c'', c.put k v = some c' ∧ c'.get k = some (c'', v) := by
  obtain ⟨l, hInv, _, _⟩ := reach_inv hc0 hrun
  cases hak : alookup c.cache k with
  | some n =>
    obtain ⟨c', hput, hInv', hcache, _, _, _, _, _, hnv, _, _⟩ := put_update hInv hak
    have hak' : alookup c'.cache k = some n := by
      rw [hcache]
      exact hak
    obtain ⟨c'', hget, _⟩ := get_hit hInv' hak'
    rw [hnv] at hget
    exact ⟨c', c'', hput, hget⟩
  | none =>
    by_cases hlen : (c.cache.length : Int) < c.capacity
    · obtain ⟨c', hput, hInv', hcache, _, _, _, _, hnv, _⟩ := put_new_roomy hInv hak hlen
      have hak' : alookup c'.cache k = some c.nodes.size := by
        rw [hcache, alookup_append_none hak]
        simp [alookup]
      obtain ⟨c'', hget, _⟩ := get_hit hInv' hak'
      rw [hnv] at hget
      exact ⟨c', c'', hput, hget⟩
    · obtain ⟨c', m, hgl, hput, hInv', hcache, _, _, _, _, hnv, _, hml⟩ :=
        put_new_full hInv hak (not_lt.mp hlen)
      have hkeyE : alookup c.cache ((nd c m).key) = some m := hInv.l2d m hml
      have hkne : k ≠ (nd c m).key := by
        intro h
        rw [← h, hak] at hkeyE
        exact Option.noConfusion hkeyE
      have hak' : alookup c'.cache k = some c.nodes.size := by
        rw [hcache, alookup_append_none (by rw [alookup_eraseKey_ne hkne]; exact hak)]
        simp [alookup]
      obtain ⟨c'', hget, _⟩ := get_hit hInv' hak'
      rw [hnv] at hget
      exact ⟨c', c'', hput, hget⟩

/-- C4: in every reachable state, `put` on a present key overwrites the
value in place, touches no other value, leaves the dict (index) identical,
evicts nothing, and moves the key's node to the most-recently-used
position. -/
theorem put_present_in_place {cap : Int} {c0 c : LRUCache} {ops : List Op}
    {k v : Int} {n : Nat}
    (hc0 : LRUCache.construct cap = Except.ok c0)
    (hrun : runOps c0 ops = some c)
    (hk : alookup c.cache k = some n) :
    ∃ c', c.put k v = some c' ∧ c'.cache = c.cache ∧
      lookupVal c' k = some v ∧
      (∀ k', k' ≠ k → lookupVal c' k' = lookupVal c k') ∧
      chainData c' = n :: (chainData c).erase n := by
  obtain ⟨l, hInv, _, _⟩ := reach_inv hc0 hrun
  obtain ⟨c', hput, hInv', hcache, _, _, _, _, hnk, hnv, hkvOld, hnl⟩ := put_update hInv hk
  refine ⟨c', hput, hcache, ?_, ?_, ?_⟩
  · simp [lookupVal, hcache, hk, hnv]
  · intro k' hk'
    simp only [lookupVal, hcache]
    cases hak' : alookup c.cache k' with
    | none => rfl
    | some n' =>
      have hne : n' ≠ n := by
        intro h
        have h1 := hInv.d2l _ (alookup_mem hak')
        have h2 := hInv.d2l _ (alookup_mem hk)
        rw [h] at h1
        exact hk' (h1.2.symm.trans h2.2)
      simp [(hkvOld n' hne).2]
  · rw [chainData_eq hInv, chainData_eq hInv']

/-- C5: in every reachable state, `get` on a present key returns the stored
value and changes neither the key set nor any stored value — only the
recency order, which gets the key's node at the most-recently-used
position. -/
theorem get_present_frame {cap : Int} {c0 c : LRUCache} {ops : List Op}
    {k : Int} {n : Nat}
    (hc0 : LRUCache.construct cap = Except.ok c0)
    (hrun : runOps c0 ops = some c)
    (hk : alookup c.cache k = some n) :
    ∃ c' v, c.get k = some (c', v) ∧ lookupVal c k = some v ∧ c'.cache = c.cache ∧
      (∀ k', lookupVal c' k' = lookupVal c k') ∧
      chainData c' = n :: (chainData c).erase n := by
  obtain ⟨l, hInv, _, _⟩ := reach_inv hc0 hrun
  obtain ⟨c', hget, hInv', hcache, _, _, _, _, hkv, hnl, hkey⟩ := get_hit hInv hk
  refine ⟨c', (nd c n).value, hget, ?_, hcache, ?_, ?_⟩
  · simp [lookupVal, hk]
  · intro k'
    simp only [lookupVal, hcache]
    cases hak' : alookup c.cache k' with
    | none => rfl
    | some n' => simp [(hkv n').2]
  · rw [chainData_eq hInv, chainData_eq hInv']

/-- C6: `get` never changes the key set; `put` on a present key never
changes the key set; `put` on an absent key below capacity only adds the
key; `put` on an absent key at or above capacity removes exactly one
present key and adds the new one — eviction happens in no other case. -/
theorem eviction_only_on_overflow {cap : Int} {c0 c : LRUCache} {ops : List Op}
    (hc0 : LRUCache.construct cap = Except.ok c0)
    (hrun : runOps c0 ops = some c) :
    (∀ k, ∃ r, c.get k = some r ∧ ∀ k', keyPresent r.1 k' ↔ keyPresent c k') ∧
    (∀ k v n, alookup c.cache k = some n → ∃ c', c.put k v = some c' ∧
      ∀ k', keyPresent c' k' ↔ keyPresent c k') ∧
    (∀ k v, alookup c.cache k = none → (c.cache.length : Int) < c.capacity →
      ∃ c', c.put k v = some c' ∧
        ∀ k', keyPresent c' k' ↔ (keyPresent c k' ∨ k' = k)) ∧
    (∀ k v, alookup c.cache k = none → (c.cache.length : Int) ≥ c.capacity →
      ∃ c' e, c.put k v = some c' ∧ keyPresent c e ∧ ¬ keyPresent c' e ∧
        ∀ k', keyPresent c' k' ↔ ((keyPresent c k' ∧ k' ≠ e) ∨ k' = k)) := by
  obtain ⟨l, hInv, _, _⟩ := reach_inv hc0 hrun
  refine ⟨?_, ?_, ?_, ?_⟩
  · intro k
    cases hak : alookup c.cache k with
    | none => exact ⟨(c, -1), get_none hak, fun _ => Iff.rfl⟩
    | some n =>
      obtain ⟨c', hget, _, hcache, _⟩ := get_hit hInv hak
      refine ⟨(c', (nd c n).value), hget, ?_⟩
      intro k'
      simp [keyPresent, hcache]
  · intro k v n hak
    obtain ⟨c', hput, _, hcache, _⟩ := put_update hInv hak
    refine ⟨c', hput, ?_⟩
    intro k'
    simp [keyPresent, hcache]
  · intro k v hak hlen
    obtain ⟨c', hput, _, hcache, _⟩ := put_new_roomy hInv hak hlen
    refine ⟨c', hput, ?_⟩
    intro k'
    simp only [keyPresent, hcache]
    cases hak' : alookup c.cache k' with
    | some n' => simp [alookup_append_some hak']
    | none =>
      rw [alookup_append_none hak']
      by_cases hq : k = k'
      · subst hq
        simp [alookup]
      · have hq' : ¬ (k = k') := hq
        have hq'' : ¬ (k' = k) := fun h => hq h.symm
        simp [alookup, hq', hq'']
  · intro k v hak hlen
    obtain ⟨c', m, hgl, hput, hInv', hcache, _, _, _, _, _, _, hml⟩ :=
      put_new_full hInv hak hlen
    have hkeyE : alookup c.cache ((nd c m).key) = some m := hInv.l2d m hml
    have hkne : k ≠ (nd c m).key := by
      intro h
      rw [← h, hak] at hkeyE
      exact Option.noConfusion hkeyE
    have herlookE : alookup (eraseKey c.cache ((nd c m).key)) ((nd c m).key) = none :=
      alookup_eraseKey_self hInv.kNodup
    refine ⟨c', (nd c m).key, hput, by simp [keyPresent, hkeyE], ?_, ?_⟩
    · simp only [keyPresent, hcache, alookup_append_none herlookE]
      simp [alookup, hkne]
    · intro k'
      simp only [keyPresent, hcache]
      by_cases hq : k' = k
      · subst hq
        rw [alookup_append_none (by rw [alookup_eraseKey_ne hkne]; exact hak)]
        simp [alookup, hak]
      · by_cases hke : k' = (nd c m).key
        · subst hke
          rw [alookup_append_none herlookE]
          have hne' : ¬ ((nd c m).key = k) := fun h => hkne h.symm
          simp [alookup, hkeyE, hne']
          exact hkne
        · rw [show alookup (eraseKey c.cache ((nd c m).key) ++ [(k, c.nodes.size)]) k' =
            alookup c.cache k' from ?_]
          · simp [hq, hke]
          · cases hak' : alookup c.cache k' with
            | some n' =>
              exact alookup_append_some (by rw [alookup_eraseKey_ne hke]; exact hak')
            | none =>
              rw [alookup_append_none (by rw [alookup_eraseKey_ne hke]; exact hak')]
              have hq' : ¬ (k = k') := fun h => hq h.symm
              simp [alookup, hak', hq']

/-- C7: construction fails with the invalid-capacity error exactly when the
capacity is nonpositive, producing no cache; a positive capacity yields the
empty cache whose dict is empty and whose arena holds just the two
sentinels linked to each other. -/
theorem construct_cases :
    (∀ cap : Int, cap ≤ 0 →
      LRUCache.construct cap = Except.error "Capacity must be positive") ∧
    (∀ cap : Int, 0 < cap → LRUCache.construct cap = Except.ok
      { capacity := cap, cache := [],
        nodes := #[⟨0, 0, none, some 1⟩, ⟨0, 0, some 0, none⟩],
        head := 0, tail := 1 }) := by
  constructor
  · intro cap h
    unfold LRUCache.construct
    rw [if_pos h]
  · intro cap h
    unfold LRUCache.construct
    rw [if_neg (not_le.mpr h)]

/-- C8: the miss outcome is the in-band sentinel `-1`: a `get` on a key
stored with value `-1` returns `-1`, exactly what a `get` on an absent key
returns, so the two are indistinguishable from the return value; the miss
is a normal return, never an exception. -/
theorem miss_uses_value_sentinel {cap : Int} {c0 c : LRUCache} {ops : List Op}
    (hc0 : LRUCache.construct cap = Except.ok c0)
    (hrun : runOps c0 ops = some c) :
    (∀ k n, alookup c.cache k = some n → (nd c n).value = -1 →
      ∃ c', c.get k = some (c', -1)) ∧
    (∀ k, alookup c.cache k = none → c.get k = some (c, -1)) := by
  obtain ⟨l, hInv, _, _⟩ := reach_inv hc0 hrun
  constructor
  · intro k n hk hv
    obtain ⟨c', hget, _⟩ := get_hit hInv hk
    rw [hv] at hget
    exact ⟨c', hget⟩
  · intro k hk
    exact get_none hk

/-- C10: `get` on an absent key returns the miss sentinel and the state
entirely unchanged — the miss branch returns before any list surgery. -/
theorem get_absent_pure {c : LRUCache} {k : Int}
    (hk : alookup c.cache k = none) : c.get k = some (c, -1) :=
  get_none hk

/-! ### Concrete states for the witnesses -/

/-- The cache freshly constructed with capacity 2. -/
def consW2 : LRUCache :=
  { capacity := 2, cache := [],
    nodes := #[⟨0, 0, none, some 1⟩, ⟨0, 0, some 0, none⟩],
    head := 0, tail := 1 }

/-- The capacity-2 cache after `put 1 1; put 2 2` (full). -/
def cacheW2 : LRUCache :=
  { capacity := 2, cache := [(1, 2), (2, 3)],
    nodes := #[⟨0, 0, none, some 3⟩, ⟨0, 0, some 2, none⟩,
               ⟨1, 1, some 3, some 1⟩, ⟨2, 2, some 0, some 2⟩],
    head := 0, tail := 1 }

/-- The capacity-2 cache after `put 1 (-1)`: a stored value equal to the
miss sentinel. -/
def cacheW8 : LRUCache :=
  { capacity := 2, cache := [(1, 2)],
    nodes := #[⟨0, 0, none, some 2⟩, ⟨0, 0, some 2, none⟩,
               ⟨1, -1, some 0, some 1⟩],
    head := 0, tail := 1 }

theorem evict_is_lru_witness :
    ∃ c' e te, cacheW2.put 3 3 = some c' ∧
      keyPresent cacheW2 e ∧ ¬ keyPresent c' e ∧
      lastTouch 2 [.put 1 1, .put 2 2] e = some te ∧
      (∀ k', keyPresent cacheW2 k' → k' ≠ e →
        keyPresent c' k' ∧
          ∀ t', lastTouch 2 [.put 1 1, .put 2 2] k' = some t' → te < t') ∧
      (∀ k', keyPresent cacheW2 k' → k' ≠ e →
        ∃ t', lastTouch 2 [.put 1 1, .put 2 2] k' = some t') ∧
      (∀ k', keyPresent c' k' → k' = 3 ∨ keyPresent cacheW2 k') :=
  evict_is_lru (show LRUCache.construct 2 = Except.ok consW2 from rfl)
    (show runOps consW2 [.put 1 1, .put 2 2] = some cacheW2 from by decide)
    (by decide) (by decide)

theorem size_invariant_witness :
    cacheW2.cache.length = (chainData cacheW2).length ∧
    (cacheW2.cache.length : Int) ≤ cacheW2.capacity :=
  size_invariant (show LRUCache.construct 2 = Except.ok consW2 from rfl)
    (show runOps consW2 [.put 1 1, .put 2 2] = some cacheW2 from by decide)

theorem put_get_roundtrip_witness :
    ∃ c' c'', cacheW2.put 3 7 = some c' ∧ c'.get 3 = some (c'', 7) :=
  put_get_roundtrip (show LRUCache.construct 2 = Except.ok consW2 from rfl)
    (show runOps consW2 [.put 1 1, .put 2 2] = some cacheW2 from by decide) 3 7

theorem put_present_in_place_witness :
    ∃ c', cacheW2.put 1 9 = some c' ∧ c'.cache = cacheW2.cache ∧
      lookupVal c' 1 = some 9 ∧
      (∀ k', k' ≠ 1 → lookupVal c' k' = lookupVal cacheW2 k') ∧
      chainData c' = 2 :: (chainData cacheW2).erase 2 :=
  put_present_in_place (show LRUCache.construct 2 = Except.ok consW2 from rfl)
    (show runOps consW2 [.put 1 1, .put 2 2] = some cacheW2 from by decide)
    (show alookup cacheW2.cache 1 = some 2 from by decide)

theorem get_present_frame_witness :
    ∃ c' v, cacheW2.get 1 = some (c', v) ∧ lookupVal cacheW2 1 = some v ∧
      c'.cache = cacheW2.cache ∧
      (∀ k', lookupVal c' k' = lookupVal cacheW2 k') ∧
      chainData c' = 2 :: (chainData cacheW2).erase 2 :=
  get_present_frame (show LRUCache.construct 2 = Except.ok consW2 from rfl)
    (show runOps consW2 [.put 1 1, .put 2 2] = some cacheW2 from by decide)
    (show alookup cacheW2.cache 1 = some 2 from by decide)

theorem eviction_only_on_overflow_witness :
    (∀ k, ∃ r, cacheW2.get k = some r ∧
      ∀ k', keyPresent r.1 k' ↔ keyPresent cacheW2 k') ∧
    (∀ k v n, alookup cacheW2.cache k = some n → ∃ c', cacheW2.put k v = some c' ∧
      ∀ k', keyPresent c' k' ↔ keyPresent cacheW2 k') ∧
    (∀ k v, alookup cacheW2.cache k = none →
      (cacheW2.cache.length : Int) < cacheW2.capacity →
      ∃ c', cacheW2.put k v = some c' ∧
        ∀ k', keyPresent c' k' ↔ (keyPresent cacheW2 k' ∨ k' = k)) ∧
    (∀ k v, alookup cacheW2.cache k = none →
      (cacheW2.cache.length : Int) ≥ cacheW2.capacity →
      ∃ c' e, cacheW2.put k v = some c' ∧ keyPresent cacheW2 e ∧
        ¬ keyPresent c' e ∧
        ∀ k', keyPresent c' k' ↔ ((keyPresent cacheW2 k' ∧ k' ≠ e) ∨ k' = k)) :=
  eviction_only_on_overflow (show LRUCache.construct 2 = Except.ok consW2 from rfl)
    (show runOps consW2 [.put 1 1, .put 2 2] = some cacheW2 from by decide)

theorem construct_cases_witness :
    LRUCache.construct 0 = Except.error "Capacity must be positive" ∧
    LRUCache.construct (-1) = Except.error "Capacity must be positive" ∧
    LRUCache.construct 1 = Except.ok
      { capacity := 1, cache := [],
        nodes := #[⟨0, 0, none, some 1⟩, ⟨0, 0, some 0, none⟩],
        head := 0, tail := 1 } :=
  ⟨construct_cases.1 0 (by decide), construct_cases.1 (-1) (by decide),
    construct_cases.2 1 (by decide)⟩

theorem miss_uses_value_sentinel_witness :
    (∃ c', cacheW8.get 1 = some (c', -1)) ∧ cacheW8.get 5 = some (cacheW8, -1) :=
  ⟨(miss_uses_value_sentinel (show LRUCache.construct 2 = Except.ok consW2 from rfl)
      (show runOps consW2 [.put 1 (-1)] = some cacheW8 from by decide)).1 1 2
      (by decide) (by decide),
    (miss_uses_value_sentinel (show LRUCache.construct 2 = Except.ok consW2 from rfl)
      (show runOps consW2 [.put 1 (-1)] = some cacheW8 from by decide)).2 5 (by decide)⟩

theorem get_absent_pure_witness :
    cacheW2.get 99 = some (cacheW2, -1) :=
  get_absent_pure (show alookup cacheW2.cache 99 = none from by decide)
